import Mathlib

/-!
Verification of the DeepTrack feature-graph core against its two engine
generations: the older engine (`src/DeepTrack/Features.py`, class `Feature`
with `__update__`/`__rupdate__`/`__resolve__` and an explicit `cache`
field) and the newer engine (`src/deeptrack/features.py`, class `Feature`
with `update`/`resolve` guarded by the flag
`has_updated_since_last_resolve`, plus the composition nodes `Branch`,
`Probability` and `Duplicate`).

Object graphs are embedded as association lists from numeric node ids to
node records; Python attribute mutation becomes explicit store passing.
Unbounded recursion (Python's call stack) is embedded with a fuel
parameter: every recursive step consumes one unit of fuel and running out
of fuel yields `none`, so a call that diverges in Python is a function
that yields `none` for every fuel bound.
-/

/-- Values stored in a feature's property dictionary (the possible
`current_value`s of the repository's parameter cells), including
references to other feature nodes, which is how `Group` (older engine)
and `Branch`/`Probability`/`Duplicate` (newer engine) hold subfeatures. -/
inductive Val where
  | vint (z : ℤ)
  | vrat (q : ℚ)
  | vstr (s : String)
  | vfeat (i : ℕ)
  | vfeats (l : List ℕ)
  deriving DecidableEq, Repr

/-- Modelled from the spec: the repository's `Image` class (files
`DeepTrack/Image.py` and `deeptrack/image.py` are not under `src/`).
Per the spec's Canvas data model it is a payload array together with an
append-only list of provenance records, where `append` adds one
name-plus-parameter-snapshot record. Arrays are embedded as rational
matrices (lists of rows). -/
structure Image where
  payload : List (List ℚ)
  records : List (List (String × Val))
  deriving DecidableEq, Repr

/-- `np.zeros(shape)` for a 2-dimensional shape. -/
def zerosP (h w : ℕ) : List (List ℚ) :=
  List.replicate h (List.replicate w (0 : ℚ))

/-- Concrete leaf transformations; the bodies of leaf `get` methods are
out of scope for the core (spec: "pure given its arguments"), so leaves
are embedded as a small family of pure elementwise array maps. -/
inductive Transform where
  | tid
  | addC (c : ℚ)
  | mulC (c : ℚ)
  deriving DecidableEq, Repr

def applyT : Transform → List (List ℚ) → List (List ℚ)
  | .tid, p => p
  | .addC c, p => p.map (fun row => row.map (fun x => x + c))
  | .mulC c, p => p.map (fun row => row.map (fun x => x * c))

/-- Association-list lookup (Python dict / object-id indexed store). -/
def alookup {κ α : Type} [DecidableEq κ] : List (κ × α) → κ → Option α
  | [], _ => none
  | (k, v) :: rest, key => if k = key then some v else alookup rest key

/-- Update the value bound to `key` in place, leaving other bindings and
the binding order unchanged (Python dict item assignment / attribute
assignment on the object with that id). -/
def amap {κ α : Type} [DecidableEq κ] (f : α → α) (key : κ) :
    List (κ × α) → List (κ × α)
  | [] => []
  | (k, v) :: rest =>
    (if k = key then (k, f v) else (k, v)) :: amap f key rest

theorem alookup_amap {κ α : Type} [DecidableEq κ] (f : α → α) (key : κ)
    (l : List (κ × α)) :
    alookup (amap f key l) key = (alookup l key).map f := by
  induction l with
  | nil => rfl
  | cons hd tl ih =>
    obtain ⟨a, b⟩ := hd
    by_cases h : a = key
    · rw [amap, if_pos h]; simp [alookup, h]
    · rw [amap, if_neg h]; simp [alookup, h, ih]

theorem alookup_amap_ne {κ α : Type} [DecidableEq κ] (f : α → α)
    (key key' : κ) (l : List (κ × α)) (h : key' ≠ key) :
    alookup (amap f key l) key' = alookup l key' := by
  induction l with
  | nil => rfl
  | cons hd tl ih =>
    obtain ⟨a, b⟩ := hd
    by_cases hh : a = key
    · rw [amap, if_pos hh]
      simp [alookup, hh, Ne.symm h, ih]
    · rw [amap, if_neg hh]
      by_cases hk : a = key'
      · simp [alookup, hk]
      · simp [alookup, hk, ih]

theorem alookup_map {κ α : Type} [DecidableEq κ] (g : α → α)
    (l : List (κ × α)) (k : κ) :
    alookup (l.map (fun p => (p.1, g p.2))) k = (alookup l k).map g := by
  induction l with
  | nil => rfl
  | cons hd tl ih =>
    obtain ⟨a, b⟩ := hd
    by_cases h : a = k
    · subst h; simp [alookup]
    · simp [alookup, h, ih]

/-! ## Older engine: `src/DeepTrack/Features.py` -/

/-- The `parent` attribute of an older-engine `Feature`: absent, a raw
`ndarray`, an `Image`, or another `Feature` (by object reference,
embedded as a node id). The source's final "else, pray" branch (a parent
of any other type) is not representable. -/
inductive OParent where
  | praw (a : List (List ℚ))
  | pimg (im : Image)
  | pnode (i : ℕ)
  deriving DecidableEq, Repr

/-- Which concrete `get` method an older-engine node carries: a leaf
transformation, or `Group.get` (which resolves the feature held in the
`group` property and ignores its input image). -/
inductive OKind where
  | leaf (t : Transform)
  | group
  deriving DecidableEq, Repr

/-- An older-engine `Feature` object. `props` is `__properties__` with
each `Distribution` collapsed to its `current_value`
(`DeepTrack/Distributions.py` is not under `src/`; per the spec a
parameter cell exposes a stable current value between resamples).
`probability` embeds `getattr(self, "probability", 1)` by giving the
field default 1. `updates` is an instrumentation counter: it counts how
many times this node's property set has been resampled. -/
structure ONode where
  props : List (String × Val)
  parent : Option OParent := none
  probability : ℚ := 1
  kind : OKind
  name : String := "Unnamed feature"
  cache : Option Image := none
  updates : ℕ := 0
  deriving DecidableEq, Repr

/-- The heap of older-engine feature objects, keyed by object identity. -/
abbrev OStore := List (ℕ × ONode)

def osetCache (s : OStore) (i : ℕ) (c : Image) : OStore :=
  amap (fun n => { n with cache := some c }) i s

def obump (s : OStore) (i : ℕ) : OStore :=
  amap (fun n => { n with updates := n.updates + 1 }) i s

def oset (s : OStore) (i : ℕ) (n : ONode) : OStore :=
  amap (fun _ => n) i s

/-- `Feature.__input_shape__` returns the requested shape unchanged;
`Group.__input_shape__` delegates to the feature in its `group`
property. -/
def inputShapeO : ℕ → OStore → ℕ → ℕ × ℕ → Option (ℕ × ℕ)
  | 0, _, _, _ => none
  | fuel + 1, s, i, shape =>
    match alookup s i with
    | none => none
    | some n =>
      match n.kind with
      | OKind.leaf _ => some shape
      | OKind.group =>
        match alookup n.props "group" with
        | some (Val.vfeat j) => inputShapeO fuel s j shape
        | _ => none

/-- `Feature.__resolve__(shape)` (older engine, lines 198-232).
`rnd` is the stream of `np.random.rand()` draws and `k` the position of
the next draw; each non-cached visit consumes exactly one draw.
Returns the produced image, the updated heap (caches written), and the
new draw position. -/
def resolveO : ℕ → (ℕ → ℚ) → OStore → ℕ → ℕ → ℕ × ℕ →
    Option (Image × OStore × ℕ)
  | 0, _, _, _, _, _ => none
  | fuel + 1, rnd, s, k, i, shape =>
    match alookup s i with
    | none => none
    | some n =>
      match n.cache with
      | some c => some (c, s, k)
      | none =>
        let step1 : Option (Image × OStore × ℕ) :=
          match n.parent with
          | none =>
            match inputShapeO (fuel + 1) s i shape with
            | none => none
            | some ish => some (⟨zerosP ish.1 ish.2, []⟩, s, k)
          | some (OParent.praw a) => some (⟨a, []⟩, s, k)
          | some (OParent.pimg im) => some (im, s, k)
          | some (OParent.pnode j) => resolveO fuel rnd s k j shape
        match step1 with
        | none => none
        | some (img, s1, k1) =>
          let r := rnd k1
          let step2 : Option (Image × OStore × ℕ) :=
            if r ≤ n.probability then
              match n.kind with
              | OKind.leaf t =>
                some (⟨applyT t img.payload,
                       img.records ++ [n.props ++ [("name", Val.vstr n.name)]]⟩,
                      s1, k1 + 1)
              | OKind.group =>
                match alookup n.props "group" with
                | some (Val.vfeat j) =>
                  match resolveO fuel rnd s1 (k1 + 1) j shape with
                  | none => none
                  | some (gimg, s2, k2) =>
                    some (⟨gimg.payload,
                           gimg.records ++ [n.props ++ [("name", Val.vstr n.name)]]⟩,
                          s2, k2)
                | _ => none
            else
              some (img, s1, k1 + 1)
          match step2 with
          | none => none
          | some (img2, s2, k2) => some (img2, osetCache s2 i img2, k2)

/-- Runtime type dispatch on a stored property value: a feature
reference or not. -/
def propFeatRef : Val → Option ℕ
  | Val.vfeat j => some j
  | _ => none

mutual

/-- `Feature.__update__(history)` together with its loop over the
property values (older engine, lines 150-154): a node not yet in the
threaded history list appends itself, resamples its property set (the
`updates` counter bump), and recurses into feature-valued properties
(for `Group`, `Feature.__update__` is what runs on the held feature); a
node already in the history is skipped entirely. -/
def updateO : ℕ → OStore → List ℕ → ℕ → Option (OStore × List ℕ)
  | 0, _, _, _ => none
  | fuel + 1, s, h, i =>
    if i ∈ h then some (s, h)
    else
      match alookup s i with
      | none => none
      | some n => updatePropsO fuel (obump s i) (h ++ [i]) n.props

/-- The `for val in self.__properties__.values(): val.__update__(history)`
loop: feature-valued properties recurse into `updateO`; parameter cells
are covered by the owning node's single resample bump. `propFeatRef`
performs the runtime type dispatch (is this stored value a feature?). -/
def updatePropsO : ℕ → OStore → List ℕ → List (String × Val) →
    Option (OStore × List ℕ)
  | 0, _, _, _ => none
  | _ + 1, s, h, [] => some (s, h)
  | fuel + 1, s, h, pv :: rest =>
    match propFeatRef pv.2 with
    | some j =>
      match updateO fuel s h j with
      | none => none
      | some (s1, h1) => updatePropsO fuel s1 h1 rest
    | none => updatePropsO fuel s h rest

end

/-- `Feature.__rupdate__(history)` (older engine, lines 141-144):
update this node, then recurse into the parent unconditionally. A raw
array or image parent has no `__rupdate__` (an `AttributeError` in
Python), embedded as `none`. -/
def rupdateO : ℕ → OStore → List ℕ → ℕ → Option (OStore × List ℕ)
  | 0, _, _, _ => none
  | fuel + 1, s, h, i =>
    match updateO (fuel + 1) s h i with
    | none => none
    | some (s1, h1) =>
      match alookup s1 i with
      | none => none
      | some n =>
        match n.parent with
        | some (OParent.pnode j) => rupdateO fuel s1 h1 j
        | some _ => none
        | none => some (s1, h1)

/-- `Feature.getRoot` (older engine, lines 124-128): follow the parent
chain while the parent is a feature; a node without a parent attribute
is its own root. A raw-array or image parent has no `getRoot` (an
`AttributeError` in Python), embedded as `none`. -/
def getRootO : ℕ → OStore → ℕ → Option ℕ
  | 0, _, _ => none
  | fuel + 1, s, i =>
    match alookup s i with
    | none => none
    | some n =>
      match n.parent with
      | some (OParent.pnode j) => getRootO fuel s j
      | some _ => none
      | none => some i

mutual

/-- `copy.deepcopy` applied to an older-engine feature: allocates a fresh
object id for the node and recursively copies its parent chain and any
feature-valued properties, leaving every pre-existing object untouched.
`next` is the next unused object id. (Python's `deepcopy` memo table is
not modelled: an object reachable twice is copied twice; the claims
settled here concern only mutation of, and reference sharing with, the
pre-existing objects.) -/
def deepcopyO : ℕ → OStore → ℕ → ℕ → Option (ℕ × OStore × ℕ)
  | 0, _, _, _ => none
  | fuel + 1, s, next, i =>
    match alookup s i with
    | none => none
    | some n =>
      match (match n.parent with
             | some (OParent.pnode j) =>
               match deepcopyO fuel s next j with
               | none => none
               | some (j2, s1, nx1) => some (some (OParent.pnode j2), s1, nx1)
             | other => some (other, s, next) :
               Option (Option OParent × OStore × ℕ)) with
      | none => none
      | some (par2, s1, nx1) =>
        match deepcopyPropsO fuel s1 nx1 n.props with
        | none => none
        | some (props2, s2, nx2) =>
          some (nx2,
                s2 ++ [(nx2, { n with parent := par2, props := props2 })],
                nx2 + 1)
termination_by structural fuel => fuel

/-- Deep copy of a property dictionary's values. -/
def deepcopyPropsO : ℕ → OStore → ℕ → List (String × Val) →
    Option (List (String × Val) × OStore × ℕ)
  | 0, _, _, _ => none
  | _ + 1, s, next, [] => some ([], s, next)
  | fuel + 1, s, next, (key, v) :: rest =>
    match deepcopyValO fuel s next v with
    | none => none
    | some (v2, s1, nx1) =>
      match deepcopyPropsO fuel s1 nx1 rest with
      | none => none
      | some (rest2, s2, nx2) => some ((key, v2) :: rest2, s2, nx2)
termination_by structural fuel => fuel

/-- Deep copy of one property value: feature references are copied
recursively, plain values are value-copied. -/
def deepcopyValO : ℕ → OStore → ℕ → Val → Option (Val × OStore × ℕ)
  | 0, _, _, _ => none
  | fuel + 1, s, next, v =>
    match v with
    | Val.vfeat j =>
      match deepcopyO fuel s next j with
      | none => none
      | some (j2, s1, nx1) => some (Val.vfeat j2, s1, nx1)
    | Val.vfeats l =>
      match deepcopyIdsO fuel s next l with
      | none => none
      | some (l2, s1, nx1) => some (Val.vfeats l2, s1, nx1)
    | Val.vint z => some (Val.vint z, s, next)
    | Val.vrat q => some (Val.vrat q, s, next)
    | Val.vstr st => some (Val.vstr st, s, next)
termination_by structural fuel => fuel

/-- Deep copy of a list of feature references. -/
def deepcopyIdsO : ℕ → OStore → ℕ → List ℕ →
    Option (List ℕ × OStore × ℕ)
  | 0, _, _, _ => none
  | _ + 1, s, next, [] => some ([], s, next)
  | fuel + 1, s, next, j :: rest =>
    match deepcopyO fuel s next j with
    | none => none
    | some (j2, s1, nx1) =>
      match deepcopyIdsO fuel s1 nx1 rest with
      | none => none
      | some (rest2, s2, nx2) => some (j2 :: rest2, s2, nx2)
termination_by structural fuel => fuel

end

/-- The older-engine `Group` node built around an existing feature:
`Group.__init__` stores the feature in the `group` property (unwrapped),
and the node has no parent and no cache. -/
def groupNodeO (inner : ℕ) (p : ℚ) (par : Option OParent) : ONode :=
  { props := [("group", Val.vfeat inner)], parent := par,
    probability := p, kind := OKind.group, name := "Group",
    cache := none, updates := 0 }

/-- `Feature.setParent` (older engine, lines 131-138) together with the
`Group.setParent` override (lines 273-276): a parentless node takes the
new parent directly and is returned; a node that already has a parent is
wrapped in a fresh `Group`, the group takes the new parent, and the root
ancestor of the wrapped subgraph is re-parented onto the new parent as
well. Returns the node to use downstream, the heap, and the next free
id. -/
def setParentO (fuel : ℕ) (s : OStore) (ci : ℕ) (pref : OParent)
    (next : ℕ) : Option (ℕ × OStore × ℕ) :=
  match alookup s ci with
  | none => none
  | some n =>
    match n.parent with
    | none => some (ci, oset s ci { n with parent := some pref }, next)
    | some _ =>
      match getRootO fuel s ci with
      | none => none
      | some r =>
        match alookup s r with
        | none => none
        | some rn =>
          some (next,
                oset s r { rn with parent := some pref } ++
                  [(next, groupNodeO ci 1 (some pref))],
                next + 1)

/-- `Feature.__add__` (older engine, lines 163-166): deep-copy the right
operand, then attach the left operand — by reference, not a copy — as
the copy's parent via `setParent`. -/
def addO (fuel : ℕ) (s : OStore) (selfI otherI next : ℕ) :
    Option (ℕ × OStore × ℕ) :=
  match deepcopyO fuel s next otherI with
  | none => none
  | some (c, s1, nx1) => setParentO fuel s1 c (OParent.pnode selfI) nx1

/-- `Feature.__mul__` (older engine, lines 173-176): deep-copy the left
operand, wrap the copy in a fresh `Group`, and set the group's
`probability` attribute to the right operand. -/
def mulO (fuel : ℕ) (s : OStore) (selfI : ℕ) (p : ℚ) (next : ℕ) :
    Option (ℕ × OStore × ℕ) :=
  match deepcopyO fuel s next selfI with
  | none => none
  | some (c, s1, nx1) =>
    some (nx1, s1 ++ [(nx1, groupNodeO c p none)], nx1 + 1)

/-- `Feature.get_property(key)` (older engine, lines 116-117): the
current value of the parameter cell stored under `key`; a missing key is
a `KeyError`, embedded as `none`. -/
def getPropertyO (props : List (String × Val)) (key : String) :
    Option Val :=
  alookup props key

/-- `Feature.set_property(key, value)` (older engine, lines 120-121):
the source assigns `key` — the key string itself — to the cell's
`current_value`, ignoring the `value` argument; a missing key is a
`KeyError`, embedded as `none`. -/
def setPropertyO (props : List (String × Val)) (key : String)
    (_value : Val) : Option (List (String × Val)) :=
  match alookup props key with
  | none => none
  | some _ => some (amap (fun _ => Val.vstr key) key props)

/-! ## Newer engine: `src/deeptrack/features.py` -/

/-- Modelled from the spec: the sampling rule of a `Property` cell
(`deeptrack/properties.py` is not under `src/`). Per the spec a
StochasticParameter holds either a constant or a sampling rule; the only
sampler the claims need is `np.random.rand` (a fresh uniform draw each
update), used by `Probability.random_number`. -/
inductive NRule where
  | rconst
  | runiform
  deriving DecidableEq, Repr

/-- Modelled from the spec: a `Property` cell — a sampling rule plus the
stable `current_value` it exposes between updates. -/
structure NProp where
  rule : NRule := NRule.rconst
  current : Val
  deriving DecidableEq, Repr

/-- Which `get` method a newer-engine feature carries: a leaf
transformation with its class name, or one of the composition classes
`Branch`, `Probability`, `Duplicate`. (`Wrap` and `Load` are not needed
by any claim.) -/
inductive NKind where
  | leaf (t : Transform) (nm : String)
  | branch
  | probability
  | duplicate
  deriving DecidableEq, Repr

def nkindName : NKind → String
  | NKind.leaf _ nm => nm
  | NKind.branch => "Branch"
  | NKind.probability => "Probability"
  | NKind.duplicate => "Duplicate"

/-- A newer-engine `Feature` object: the `PropertyDict` (insertion
ordered), the class-level `__property_verbosity__`, and the
`has_updated_since_last_resolve` flag. `updates` is an instrumentation
counter of property-set resamples. -/
structure NNode where
  props : List (String × NProp)
  kind : NKind
  verbosity : ℕ := 1
  flag : Bool := false
  updates : ℕ := 0
  deriving DecidableEq, Repr

/-- The heap of newer-engine feature objects, keyed by object identity. -/
abbrev NStore := List (ℕ × NNode)

def nsetFlag (s : NStore) (i : ℕ) (b : Bool) : NStore :=
  amap (fun n => { n with flag := b }) i s

/-- Replace the node bound to `i` (attribute assignment on that
object). -/
def nset (s : NStore) (i : ℕ) (n : NNode) : NStore :=
  amap (fun _ => n) i s

/-- `PropertyDict.current_value_dict()`: each cell collapsed to its
current value. -/
def currentsOf (props : List (String × NProp)) : List (String × Val) :=
  props.map (fun p => (p.1, p.2.current))

/-- Modelled from the spec: `PropertyDict.update()` resamples every cell
in declaration order; a constant rule keeps its value, the uniform rule
draws the next number from the stream `rnd` at position `k`. Returns the
new cells and the new stream position. (The `Duplicate.features`
materialization lambda is embedded separately as `dupMaterialize`.) -/
def resampleProps (rnd : ℕ → ℚ) : ℕ → List (String × NProp) →
    List (String × NProp) × ℕ
  | k, [] => ([], k)
  | k, (nm, c) :: rest =>
    match c.rule with
    | NRule.rconst =>
      let (rest2, k2) := resampleProps rnd k rest
      ((nm, c) :: rest2, k2)
    | NRule.runiform =>
      let (rest2, k2) := resampleProps rnd (k + 1) rest
      ((nm, { c with current := Val.vrat (rnd k) }) :: rest2, k2)

/-- `Feature.update` (newer engine, lines 122-129): resample the
property set only when `has_updated_since_last_resolve` is not set, then
set the flag; when the flag is already set the call leaves the object
unchanged. -/
def updN (rnd : ℕ → ℚ) (k : ℕ) (s : NStore) (i : ℕ) :
    Option (NStore × ℕ) :=
  match alookup s i with
  | none => none
  | some n =>
    if n.flag then
      some (nset s i { n with flag := true }, k)
    else
      let (props2, k2) := resampleProps rnd k n.props
      some (nset s i { n with props := props2, flag := true,
                              updates := n.updates + 1 }, k2)

/-- Read a feature reference out of a `get` input dictionary (the
runtime type dispatch Python performs when `feature.resolve(...)` is
called on the looked-up value; anything other than a feature is an
`AttributeError`, embedded as `none`). -/
def getFeatRef (l : List (String × Val)) (key : String) : Option ℕ :=
  match alookup l key with
  | some (Val.vfeat f) => some f
  | _ => none

/-- Read a numeric value out of a `get` input dictionary (used for the
`random_number < probability` comparison). -/
def getRatVal (l : List (String × Val)) (key : String) : Option ℚ :=
  match alookup l key with
  | some (Val.vrat r) => some r
  | _ => none

/-- Read a list of feature references out of a `get` input dictionary
(the `features` list iterated by `Duplicate.get`). -/
def getFeatList (l : List (String × Val)) (key : String) :
    Option (List ℕ) :=
  match alookup l key with
  | some (Val.vfeats fs) => some fs
  | _ => none

/-- The `get` input dictionary of a newer-engine resolve: the property
currents (`properties.current_value_dict()`) updated with the global
kwargs. The only global kwarg the embedding carries is
`property_verbosity`, present iff `verb` is `some` (`_process_properties`
is the default identity hook). -/
def mkFInput (props : List (String × NProp)) (verb : Option ℕ) :
    List (String × Val) :=
  currentsOf props ++
    (match verb with
     | some v => [("property_verbosity", Val.vint (v : ℤ))]
     | none => [])

/-- `global_kwargs.get("property_verbosity", 1)`. -/
def effVerb (verb : Option ℕ) : ℕ :=
  match verb with
  | some v => v
  | none => 1

/-- The provenance-recording step of a newer-engine resolve (lines
112-118): append `feature_input` plus the class name iff the class
verbosity is at most the requested one. -/
def recordN (n : NNode) (verb : Option ℕ) (img1 : Image) : Image :=
  if n.verbosity ≤ effVerb verb then
    ⟨img1.payload,
     img1.records ++
       [mkFInput n.props verb ++ [("name", Val.vstr (nkindName n.kind))]]⟩
  else img1

mutual

/-- `Feature.resolve(image, **global_kwargs)` (newer engine, lines
92-120): build the `get` input from the property currents merged with
the global kwargs, dispatch to the class's `get`, append a provenance
record when the class verbosity is at most the requested one (default
1), and clear `has_updated_since_last_resolve`. -/
def resolveN : ℕ → NStore → ℕ → Image → Option ℕ →
    Option (Image × NStore)
  | 0, _, _, _, _ => none
  | fuel + 1, s, i, img, verb =>
    match alookup s i with
    | none => none
    | some n =>
      let step : Option (Image × NStore) :=
        match n.kind with
        | NKind.leaf t _ =>
          some (⟨applyT t img.payload, img.records⟩, s)
        | NKind.branch =>
          match getFeatRef (mkFInput n.props verb) "feature_1",
                getFeatRef (mkFInput n.props verb) "feature_2" with
          | some f1, some f2 => resolveSeq fuel s [f1, f2] img verb
          | _, _ => none
        | NKind.probability =>
          match getRatVal (mkFInput n.props verb) "random_number",
                getRatVal (mkFInput n.props verb) "probability",
                getFeatRef (mkFInput n.props verb) "feature" with
          | some r, some p, some f =>
            if r < p then resolveN fuel s f img verb else some (img, s)
          | _, _, _ => none
        | NKind.duplicate =>
          match getFeatList (mkFInput n.props verb) "features" with
          | some fs => resolveSeq fuel s fs img verb
          | _ => none
      match step with
      | none => none
      | some (img1, s1) => some (recordN n verb img1, nsetFlag s1 i false)

/-- Sequential resolution of a list of subfeatures, each fed the
previous output (the bodies of `Branch.get` and `Duplicate.get`). -/
def resolveSeq : ℕ → NStore → List ℕ → Image → Option ℕ →
    Option (Image × NStore)
  | 0, _, _, _, _ => none
  | _ + 1, s, [], img, _ => some (img, s)
  | fuel + 1, s, j :: rest, img, verb =>
    match resolveN fuel s j img verb with
    | none => none
    | some (img1, s1) => resolveSeq fuel s1 rest img1 verb

end

/-- Python errors surfaced by the `Duplicate` count: `range()` applied
to a non-integer raises `TypeError`. -/
inductive PyErr where
  | typeError
  deriving DecidableEq, Repr

/-- The `Duplicate.features` sampling lambda (newer engine, line 232):
`[copy.deepcopy(feature).update() for _ in range(num_duplicates.current_value)]`.
The control behavior of `range` on the sampled count: a non-negative
integer `z` yields `z` elements, a negative integer yields an empty
range (and hence an empty list, with no error), and a non-integer
(float) raises `TypeError`. Each materialized copy is abstracted to a
unit element; which copies are built is irrelevant to the count policy. -/
def dupMaterialize : Val → Except PyErr (List Unit)
  | Val.vint z => Except.ok (List.replicate z.toNat ())
  | _ => Except.error PyErr.typeError

/-- `Feature.__add__` (newer engine, lines 164-165): `Branch(self,
other)` — a fresh two-feature node holding both operands by reference. -/
def addN (s : NStore) (i j next : ℕ) : ℕ × NStore × ℕ :=
  (next,
   s ++ [(next,
          { props := [("feature_1", { current := Val.vfeat i }),
                      ("feature_2", { current := Val.vfeat j })],
            kind := NKind.branch, verbosity := 2, flag := false,
            updates := 0 })],
   next + 1)

/-- `Feature.__mul__` (newer engine, lines 168-169): `Probability(self,
other)` — a fresh node holding the operand by reference, the gate
probability, and a `random_number` cell whose rule is `np.random.rand`.
`r0` is the cell's initial current value (its pre-first-update content;
`deeptrack/properties.py` is not under `src/`). -/
def mulN (s : NStore) (i : ℕ) (p : ℚ) (r0 : ℚ) (next : ℕ) :
    ℕ × NStore × ℕ :=
  (next,
   s ++ [(next,
          { props := [("feature", { current := Val.vfeat i }),
                      ("probability", { current := Val.vrat p }),
                      ("random_number", { rule := NRule.runiform,
                                          current := Val.vrat r0 })],
            kind := NKind.probability, verbosity := 2, flag := false,
            updates := 0 })],
   next + 1)

/-- `Feature.__pow__` (newer engine, lines 174-175): `Duplicate(self,
other)` — a fresh node holding the count cell and the `features` cell
(initially empty; populated by the materialization lambda at update,
which captures the operand by reference as `self.feature` and
deep-copies it once per materialized element). -/
def powN (s : NStore) (_i : ℕ) (nd : Val) (next : ℕ) : ℕ × NStore × ℕ :=
  (next,
   s ++ [(next,
          { props := [("num_duplicates", { current := nd }),
                      ("features", { current := Val.vfeats [] })],
            kind := NKind.duplicate, verbosity := 2, flag := false,
            updates := 0 })],
   next + 1)

/-- The gate decision `random_number < probability` a `Probability`
node would take, read off its current property values. -/
def probDecision (s : NStore) (i : ℕ) : Option Bool :=
  match alookup s i with
  | none => none
  | some n =>
    match getRatVal (currentsOf n.props) "random_number",
          getRatVal (currentsOf n.props) "probability" with
    | some r, some p => some (decide (r < p))
    | _, _ => none

/-- Erase every `has_updated_since_last_resolve` flag; two heaps with
the same erasure differ at most in their flags. -/
def eraseNodeFlag (n : NNode) : NNode := { n with flag := false }

def eraseF (s : NStore) : NStore :=
  s.map (fun p => (p.1, eraseNodeFlag p.2))

/-! ## Lemmas about the older engine's resolve pass -/

theorem isSome_osetCache (s : OStore) (i : ℕ) (c : Image) (j : ℕ) :
    (alookup (osetCache s i c) j).isSome = (alookup s j).isSome := by
  by_cases h : j = i
  · subst h; rw [osetCache, alookup_amap]; cases alookup s j <;> rfl
  · rw [osetCache, alookup_amap_ne _ _ _ _ h]

theorem alookup_osetCache_self (s : OStore) (i : ℕ) (c : Image) :
    alookup (osetCache s i c) i =
      (alookup s i).map (fun n => { n with cache := some c }) :=
  alookup_amap _ _ _

theorem osetCache_spec (s : OStore) (i : ℕ) (c : Image) (nx : ONode)
    (hx : alookup s i = some nx) :
    ∃ n2, alookup (osetCache s i c) i = some n2 ∧ n2.cache = some c := by
  refine ⟨{ nx with cache := some c }, ?_, rfl⟩
  rw [osetCache, alookup_amap, hx]; rfl

/-- A successful resolve pass never removes objects from the heap, and
leaves the resolved node's `cache` holding exactly the returned image
(the source stores `copy.deepcopy(image)` and returns `image`; under
value semantics the two are equal). -/
theorem resolveO_post : ∀ (fuel : ℕ) (rnd : ℕ → ℚ) (s : OStore) (k i : ℕ)
    (sh : ℕ × ℕ) (im : Image) (s2 : OStore) (k2 : ℕ),
    resolveO fuel rnd s k i sh = some (im, s2, k2) →
    (∀ j, (alookup s j).isSome → (alookup s2 j).isSome) ∧
    (∃ n2, alookup s2 i = some n2 ∧ n2.cache = some im) := by
  intro fuel
  induction fuel with
  | zero =>
    intro rnd s k i sh im s2 k2 h
    exact absurd h (by simp [resolveO])
  | succ fuel ih =>
    intro rnd s k i sh im s2 k2 h
    simp only [resolveO] at h
    cases hn : alookup s i with
    | none => rw [hn] at h; exact absurd h (by simp)
    | some n =>
      simp only [hn] at h
      cases hc : n.cache with
      | some c =>
        simp only [hc, Option.some.injEq, Prod.mk.injEq] at h
        obtain ⟨h1, h2, -⟩ := h
        subst h1; subst h2
        exact ⟨fun j hj => hj, ⟨n, hn, hc⟩⟩
      | none =>
        simp only [hc] at h
        have step1 :
            ∀ (img : Image) (s1 : OStore) (k1 : ℕ),
              (match n.parent with
               | none =>
                 match inputShapeO (fuel + 1) s i sh with
                 | none => none
                 | some ish => some ((⟨zerosP ish.1 ish.2, []⟩ : Image), s, k)
               | some (OParent.praw a) => some ((⟨a, []⟩ : Image), s, k)
               | some (OParent.pimg im0) => some (im0, s, k)
               | some (OParent.pnode j0) => resolveO fuel rnd s k j0 sh) =
                some (img, s1, k1) →
              ∀ j, (alookup s j).isSome → (alookup s1 j).isSome := by
          intro img s1 k1 hstep j hj
          cases hp : n.parent with
          | none =>
            rw [hp] at hstep
            cases hish : inputShapeO (fuel + 1) s i sh with
            | none => rw [hish] at hstep; exact absurd hstep (by simp)
            | some ish =>
              rw [hish] at hstep
              simp only [Option.some.injEq, Prod.mk.injEq] at hstep
              obtain ⟨-, hst, -⟩ := hstep; rw [← hst]; exact hj
          | some par =>
            cases par with
            | praw a =>
              rw [hp] at hstep
              simp only [Option.some.injEq, Prod.mk.injEq] at hstep
              obtain ⟨-, hst, -⟩ := hstep; rw [← hst]; exact hj
            | pimg im0 =>
              rw [hp] at hstep
              simp only [Option.some.injEq, Prod.mk.injEq] at hstep
              obtain ⟨-, hst, -⟩ := hstep; rw [← hst]; exact hj
            | pnode j0 =>
              rw [hp] at hstep
              exact (ih rnd s k j0 sh img s1 k1 hstep).1 j hj
        cases hs1 : (match n.parent with
               | none =>
                 match inputShapeO (fuel + 1) s i sh with
                 | none => none
                 | some ish => some ((⟨zerosP ish.1 ish.2, []⟩ : Image), s, k)
               | some (OParent.praw a) => some ((⟨a, []⟩ : Image), s, k)
               | some (OParent.pimg im0) => some (im0, s, k)
               | some (OParent.pnode j0) => resolveO fuel rnd s k j0 sh) with
        | none => rw [hs1] at h; exact absurd h (by simp)
        | some t1 =>
          obtain ⟨img, s1, k1⟩ := t1
          have hmem1 := step1 img s1 k1 hs1
          have hsome1 : (alookup s1 i).isSome :=
            hmem1 i (by rw [hn]; rfl)
          simp only [hs1] at h
          by_cases hpr : rnd k1 ≤ n.probability
          · rw [if_pos hpr] at h
            cases hk : n.kind with
            | leaf t =>
              simp only [hk, Option.some.injEq, Prod.mk.injEq] at h
              obtain ⟨h1, h2, -⟩ := h
              subst h1; subst h2
              constructor
              · intro j hj; rw [isSome_osetCache]; exact hmem1 j hj
              · cases hx : alookup s1 i with
                | none => rw [hx] at hsome1; exact absurd hsome1 (by simp)
                | some nx => exact osetCache_spec s1 i _ nx hx
            | group =>
              simp only [hk] at h
              cases hg : alookup n.props "group" with
              | none => rw [hg] at h; simp at h
              | some gv =>
                cases gv with
                | vfeat j1 =>
                  simp only [hg] at h
                  cases hr2 : resolveO fuel rnd s1 (k1 + 1) j1 sh with
                  | none => simp only [hr2] at h; exact Option.noConfusion h
                  | some t2 =>
                    obtain ⟨gimg, s2x, k2x⟩ := t2
                    simp only [hr2, Option.some.injEq, Prod.mk.injEq] at h
                    obtain ⟨h1, h2, -⟩ := h
                    subst h1; subst h2
                    have hmem2 := (ih rnd s1 (k1 + 1) j1 sh gimg s2x k2x hr2).1
                    have hsome2 : (alookup s2x i).isSome := hmem2 i hsome1
                    constructor
                    · intro j hj
                      rw [isSome_osetCache]; exact hmem2 j (hmem1 j hj)
                    · cases hx : alookup s2x i with
                      | none => rw [hx] at hsome2; exact absurd hsome2 (by simp)
                      | some nx => exact osetCache_spec s2x i _ nx hx
                | vint z => rw [hg] at h; simp at h
                | vrat q => rw [hg] at h; simp at h
                | vstr st => rw [hg] at h; simp at h
                | vfeats l => rw [hg] at h; simp at h
          · rw [if_neg hpr] at h
            simp only [Option.some.injEq, Prod.mk.injEq] at h
            obtain ⟨h1, h2, -⟩ := h
            subst h1; subst h2
            constructor
            · intro j hj; rw [isSome_osetCache]; exact hmem1 j hj
            · cases hx : alookup s1 i with
              | none => rw [hx] at hsome1; exact absurd hsome1 (by simp)
              | some nx => exact osetCache_spec s1 i _ nx hx

/-- Once a resolve pass has succeeded, any later resolve of the same
node against the same shape — with any fuel, any random stream and any
draw position, as long as no update or clear intervenes — returns the
cached image immediately and changes nothing. -/
theorem resolveO_again (fuel fuel2 : ℕ) (rnd rnd2 : ℕ → ℚ) (s : OStore)
    (k k3 i : ℕ) (sh : ℕ × ℕ) (im : Image) (s2 : OStore) (k2 : ℕ)
    (h : resolveO fuel rnd s k i sh = some (im, s2, k2)) :
    resolveO (fuel2 + 1) rnd2 s2 k3 i sh = some (im, s2, k3) := by
  obtain ⟨-, n2, hn2, hc2⟩ := resolveO_post fuel rnd s k i sh im s2 k2 h
  simp [resolveO, hn2, hc2]

/-! ## Lemmas about the newer engine's resolve pass -/

theorem alookup_eraseF (s : NStore) (i : ℕ) :
    alookup (eraseF s) i = (alookup s i).map eraseNodeFlag :=
  alookup_map _ _ _

theorem eraseF_nsetFlag (s : NStore) (i : ℕ) (b : Bool) :
    eraseF (nsetFlag s i b) = eraseF s := by
  induction s with
  | nil => rfl
  | cons hd tl ih =>
    obtain ⟨a, nd⟩ := hd
    by_cases h : a = i
    · simp [nsetFlag, amap, h, eraseF] at ih ⊢
      exact ⟨rfl, ih⟩
    · simp [nsetFlag, amap, h, eraseF] at ih ⊢
      exact ih

/-- Part 1 of the flag discipline: a newer-engine resolve changes the
heap only at the `has_updated_since_last_resolve` flags. -/
theorem resolveN_eraseF : ∀ fuel : ℕ,
    (∀ s i img verb r s2, resolveN fuel s i img verb = some (r, s2) →
      eraseF s2 = eraseF s) ∧
    (∀ s ids img verb r s2, resolveSeq fuel s ids img verb = some (r, s2) →
      eraseF s2 = eraseF s) := by
  intro fuel
  induction fuel with
  | zero =>
    constructor
    · intro s i img verb r s2 h; exact absurd h (by simp [resolveN])
    · intro s ids img verb r s2 h; exact absurd h (by simp [resolveSeq])
  | succ fuel ih =>
    constructor
    · intro s i img verb r s2 h
      simp only [resolveN] at h
      cases hn : alookup s i with
      | none => rw [hn] at h; exact absurd h (by simp)
      | some n =>
        simp only [hn] at h
        cases hk : n.kind with
        | leaf t nm =>
          simp only [hk, Option.some.injEq, Prod.mk.injEq] at h
          obtain ⟨-, h2⟩ := h
          rw [← h2, eraseF_nsetFlag]
        | branch =>
          simp only [hk] at h
          cases h1 : getFeatRef (mkFInput n.props verb) "feature_1" with
          | none => rw [h1] at h; exact absurd h (by simp)
          | some f1 =>
            cases h2 : getFeatRef (mkFInput n.props verb) "feature_2" with
            | none => rw [h1, h2] at h; exact absurd h (by simp)
            | some f2 =>
              simp only [h1, h2] at h
              cases hr : resolveSeq fuel s [f1, f2] img verb with
              | none => rw [hr] at h; exact absurd h (by simp)
              | some t1 =>
                obtain ⟨img1, s1⟩ := t1
                simp only [hr, Option.some.injEq, Prod.mk.injEq] at h
                obtain ⟨-, h3⟩ := h
                rw [← h3, eraseF_nsetFlag]
                exact ih.2 s [f1, f2] img verb img1 s1 hr
        | probability =>
          simp only [hk] at h
          cases h1 : getRatVal (mkFInput n.props verb) "random_number" with
          | none => rw [h1] at h; exact absurd h (by simp)
          | some rv =>
            cases h2 : getRatVal (mkFInput n.props verb) "probability" with
            | none => rw [h1, h2] at h; exact absurd h (by simp)
            | some pv =>
              cases h3 : getFeatRef (mkFInput n.props verb) "feature" with
              | none => rw [h1, h2, h3] at h; exact absurd h (by simp)
              | some f =>
                simp only [h1, h2, h3] at h
                by_cases hlt : rv < pv
                · rw [if_pos hlt] at h
                  cases hr : resolveN fuel s f img verb with
                  | none => rw [hr] at h; exact absurd h (by simp)
                  | some t1 =>
                    obtain ⟨img1, s1⟩ := t1
                    simp only [hr, Option.some.injEq, Prod.mk.injEq] at h
                    obtain ⟨-, h4⟩ := h
                    rw [← h4, eraseF_nsetFlag]
                    exact ih.1 s f img verb img1 s1 hr
                · rw [if_neg hlt] at h
                  simp only [Option.some.injEq, Prod.mk.injEq] at h
                  obtain ⟨-, h4⟩ := h
                  rw [← h4, eraseF_nsetFlag]
        | duplicate =>
          simp only [hk] at h
          cases h1 : getFeatList (mkFInput n.props verb) "features" with
          | none => rw [h1] at h; exact absurd h (by simp)
          | some fs =>
            simp only [h1] at h
            cases hr : resolveSeq fuel s fs img verb with
            | none => rw [hr] at h; exact absurd h (by simp)
            | some t1 =>
              obtain ⟨img1, s1⟩ := t1
              simp only [hr, Option.some.injEq, Prod.mk.injEq] at h
              obtain ⟨-, h2⟩ := h
              rw [← h2, eraseF_nsetFlag]
              exact ih.2 s fs img verb img1 s1 hr
    · intro s ids img verb r s2 h
      cases ids with
      | nil =>
        simp only [resolveSeq, Option.some.injEq, Prod.mk.injEq] at h
        obtain ⟨-, h2⟩ := h
        rw [← h2]
      | cons j rest =>
        simp only [resolveSeq] at h
        cases hr : resolveN fuel s j img verb with
        | none => rw [hr] at h; exact absurd h (by simp)
        | some t1 =>
          obtain ⟨img1, s1⟩ := t1
          simp only [hr] at h
          have e1 := ih.1 s j img verb img1 s1 hr
          have e2 := ih.2 s1 rest img1 verb r s2 h
          rw [e2, e1]

/-- Relation between two resolve outcomes: both fail, or both produce
the same image with heaps equal up to flags. -/
def OptRel (o1 o2 : Option (Image × NStore)) : Prop :=
  (o1 = none ∧ o2 = none) ∨
  (∃ r s1 t1, o1 = some (r, s1) ∧ o2 = some (r, t1) ∧
    eraseF s1 = eraseF t1)

theorem optRel_none : OptRel none none := Or.inl ⟨rfl, rfl⟩

theorem optRel_some {r : Image} {s1 t1 : NStore}
    (h : eraseF s1 = eraseF t1) : OptRel (some (r, s1)) (some (r, t1)) :=
  Or.inr ⟨r, s1, t1, rfl, rfl, h⟩

theorem optRel_none_left {o1 o2 : Option (Image × NStore)}
    (h : OptRel o1 o2) (h1 : o1 = none) : o2 = none := by
  rcases h with ⟨-, hb⟩ | ⟨r, s1, t1, ha, -, -⟩
  · exact hb
  · rw [h1] at ha; exact absurd ha (by simp)

theorem optRel_some_left {o1 o2 : Option (Image × NStore)} {r : Image}
    {s1 : NStore} (h : OptRel o1 o2) (h1 : o1 = some (r, s1)) :
    ∃ t1, o2 = some (r, t1) ∧ eraseF s1 = eraseF t1 := by
  rcases h with ⟨ha, -⟩ | ⟨r2, s2, t2, ha, hb, hc⟩
  · rw [h1] at ha; exact absurd ha (by simp)
  · rw [h1] at ha
    simp only [Option.some.injEq, Prod.mk.injEq] at ha
    obtain ⟨h2, h3⟩ := ha
    subst h2; subst h3
    exact ⟨t2, hb, hc⟩

theorem eraseNodeFlag_fields {n m : NNode}
    (h : eraseNodeFlag n = eraseNodeFlag m) :
    n.props = m.props ∧ n.kind = m.kind ∧ n.verbosity = m.verbosity := by
  cases n; cases m
  simp only [eraseNodeFlag, NNode.mk.injEq] at h
  exact ⟨h.1, h.2.1, h.2.2.1⟩

theorem recordN_congr {n m : NNode} (hp : n.props = m.props)
    (hkd : n.kind = m.kind) (hv : n.verbosity = m.verbosity)
    (verb : Option ℕ) (img1 : Image) :
    recordN n verb img1 = recordN m verb img1 := by
  unfold recordN; rw [hp, hkd, hv]

theorem eraseF_lookup {s t : NStore} (hst : eraseF s = eraseF t) (i : ℕ) :
    (alookup s i).map eraseNodeFlag = (alookup t i).map eraseNodeFlag := by
  rw [← alookup_eraseF, ← alookup_eraseF, hst]

/-- Part 2 of the flag discipline: the outcome of a newer-engine resolve
depends only on the heap up to flags (the flags are never read). -/
theorem resolveN_congr : ∀ fuel : ℕ,
    (∀ s t i img verb, eraseF s = eraseF t →
      OptRel (resolveN fuel s i img verb) (resolveN fuel t i img verb)) ∧
    (∀ s t ids img verb, eraseF s = eraseF t →
      OptRel (resolveSeq fuel s ids img verb) (resolveSeq fuel t ids img verb)) := by
  intro fuel
  induction fuel with
  | zero =>
    exact ⟨fun s t i img verb _ =>
             Or.inl ⟨by simp [resolveN], by simp [resolveN]⟩,
           fun s t ids img verb _ =>
             Or.inl ⟨by simp [resolveSeq], by simp [resolveSeq]⟩⟩
  | succ fuel ih =>
    constructor
    · intro s t i img verb hst
      have hlk := eraseF_lookup hst i
      cases hn : alookup s i with
      | none =>
        cases hm : alookup t i with
        | none => exact Or.inl ⟨by simp [resolveN, hn], by simp [resolveN, hm]⟩
        | some m => rw [hn, hm] at hlk; exact absurd hlk (by simp)
      | some n =>
        cases hm : alookup t i with
        | none => rw [hn, hm] at hlk; exact absurd hlk (by simp)
        | some m =>
          rw [hn, hm] at hlk
          have hnm : eraseNodeFlag n = eraseNodeFlag m := by simpa using hlk
          obtain ⟨hp, hkd, hv⟩ := eraseNodeFlag_fields hnm
          cases hk : n.kind with
          | leaf tr nm =>
            have hk2 : m.kind = NKind.leaf tr nm := by rw [← hkd, hk]
            refine Or.inr ⟨recordN n verb ⟨applyT tr img.payload, img.records⟩,
              nsetFlag s i false, nsetFlag t i false, ?_, ?_, ?_⟩
            · simp only [resolveN, hn, hk]
            · simp only [resolveN, hm, hk2]
              rw [← recordN_congr hp hkd hv]
            · rw [eraseF_nsetFlag, eraseF_nsetFlag]; exact hst
          | branch =>
            have hk2 : m.kind = NKind.branch := by rw [← hkd, hk]
            cases h1 : getFeatRef (mkFInput n.props verb) "feature_1" with
            | none =>
              have h1t : getFeatRef (mkFInput m.props verb) "feature_1" = none := by
                rw [← hp]; exact h1
              exact Or.inl ⟨by simp [resolveN, hn, hk, h1],
                            by simp [resolveN, hm, hk2, h1t]⟩
            | some f1 =>
              have h1t : getFeatRef (mkFInput m.props verb) "feature_1" = some f1 := by
                rw [← hp]; exact h1
              cases h2 : getFeatRef (mkFInput n.props verb) "feature_2" with
              | none =>
                have h2t : getFeatRef (mkFInput m.props verb) "feature_2" = none := by
                  rw [← hp]; exact h2
                exact Or.inl ⟨by simp [resolveN, hn, hk, h1, h2],
                              by simp [resolveN, hm, hk2, h1t, h2t]⟩
              | some f2 =>
                have h2t : getFeatRef (mkFInput m.props verb) "feature_2" = some f2 := by
                  rw [← hp]; exact h2
                have hrel := ih.2 s t [f1, f2] img verb hst
                cases hsub : resolveSeq fuel s [f1, f2] img verb with
                | none =>
                  have hsubt := optRel_none_left hrel hsub
                  exact Or.inl ⟨by simp [resolveN, hn, hk, h1, h2, hsub],
                                by simp [resolveN, hm, hk2, h1t, h2t, hsubt]⟩
                | some pr =>
                  obtain ⟨rimg, s1⟩ := pr
                  obtain ⟨t1, hbt, hc⟩ := optRel_some_left hrel hsub
                  refine Or.inr ⟨recordN n verb rimg, nsetFlag s1 i false,
                    nsetFlag t1 i false, ?_, ?_, ?_⟩
                  · simp only [resolveN, hn, hk, h1, h2, hsub]
                  · simp only [resolveN, hm, hk2, h1t, h2t, hbt]
                    rw [← recordN_congr hp hkd hv]
                  · rw [eraseF_nsetFlag, eraseF_nsetFlag]; exact hc
          | probability =>
            have hk2 : m.kind = NKind.probability := by rw [← hkd, hk]
            cases h1 : getRatVal (mkFInput n.props verb) "random_number" with
            | none =>
              have h1t : getRatVal (mkFInput m.props verb) "random_number" = none := by
                rw [← hp]; exact h1
              exact Or.inl ⟨by simp [resolveN, hn, hk, h1],
                            by simp [resolveN, hm, hk2, h1t]⟩
            | some rv =>
              have h1t : getRatVal (mkFInput m.props verb) "random_number" = some rv := by
                rw [← hp]; exact h1
              cases h2 : getRatVal (mkFInput n.props verb) "probability" with
              | none =>
                have h2t : getRatVal (mkFInput m.props verb) "probability" = none := by
                  rw [← hp]; exact h2
                exact Or.inl ⟨by simp [resolveN, hn, hk, h1, h2],
                              by simp [resolveN, hm, hk2, h1t, h2t]⟩
              | some pv =>
                have h2t : getRatVal (mkFInput m.props verb) "probability" = some pv := by
                  rw [← hp]; exact h2
                cases h3 : getFeatRef (mkFInput n.props verb) "feature" with
                | none =>
                  have h3t : getFeatRef (mkFInput m.props verb) "feature" = none := by
                    rw [← hp]; exact h3
                  exact Or.inl ⟨by simp [resolveN, hn, hk, h1, h2, h3],
                                by simp [resolveN, hm, hk2, h1t, h2t, h3t]⟩
                | some f =>
                  have h3t : getFeatRef (mkFInput m.props verb) "feature" = some f := by
                    rw [← hp]; exact h3
                  by_cases hlt : rv < pv
                  · have hrel := ih.1 s t f img verb hst
                    cases hsub : resolveN fuel s f img verb with
                    | none =>
                      have hsubt := optRel_none_left hrel hsub
                      exact Or.inl
                        ⟨by simp [resolveN, hn, hk, h1, h2, h3, hlt, hsub],
                         by simp [resolveN, hm, hk2, h1t, h2t, h3t, hlt, hsubt]⟩
                    | some pr =>
                      obtain ⟨rimg, s1⟩ := pr
                      obtain ⟨t1, hbt, hc⟩ := optRel_some_left hrel hsub
                      refine Or.inr ⟨recordN n verb rimg, nsetFlag s1 i false,
                        nsetFlag t1 i false, ?_, ?_, ?_⟩
                      · simp only [resolveN, hn, hk, h1, h2, h3, if_pos hlt, hsub]
                      · simp only [resolveN, hm, hk2, h1t, h2t, h3t, if_pos hlt, hbt]
                        rw [← recordN_congr hp hkd hv]
                      · rw [eraseF_nsetFlag, eraseF_nsetFlag]; exact hc
                  · refine Or.inr ⟨recordN n verb img, nsetFlag s i false,
                      nsetFlag t i false, ?_, ?_, ?_⟩
                    · simp only [resolveN, hn, hk, h1, h2, h3, if_neg hlt]
                    · simp only [resolveN, hm, hk2, h1t, h2t, h3t, if_neg hlt]
                      rw [← recordN_congr hp hkd hv]
                    · rw [eraseF_nsetFlag, eraseF_nsetFlag]; exact hst
          | duplicate =>
            have hk2 : m.kind = NKind.duplicate := by rw [← hkd, hk]
            cases h1 : getFeatList (mkFInput n.props verb) "features" with
            | none =>
              have h1t : getFeatList (mkFInput m.props verb) "features" = none := by
                rw [← hp]; exact h1
              exact Or.inl ⟨by simp [resolveN, hn, hk, h1],
                            by simp [resolveN, hm, hk2, h1t]⟩
            | some fs =>
              have h1t : getFeatList (mkFInput m.props verb) "features" = some fs := by
                rw [← hp]; exact h1
              have hrel := ih.2 s t fs img verb hst
              cases hsub : resolveSeq fuel s fs img verb with
              | none =>
                have hsubt := optRel_none_left hrel hsub
                exact Or.inl ⟨by simp [resolveN, hn, hk, h1, hsub],
                              by simp [resolveN, hm, hk2, h1t, hsubt]⟩
              | some pr =>
                obtain ⟨rimg, s1⟩ := pr
                obtain ⟨t1, hbt, hc⟩ := optRel_some_left hrel hsub
                refine Or.inr ⟨recordN n verb rimg, nsetFlag s1 i false,
                  nsetFlag t1 i false, ?_, ?_, ?_⟩
                · simp only [resolveN, hn, hk, h1, hsub]
                · simp only [resolveN, hm, hk2, h1t, hbt]
                  rw [← recordN_congr hp hkd hv]
                · rw [eraseF_nsetFlag, eraseF_nsetFlag]; exact hc
    · intro s t ids img verb hst
      cases ids with
      | nil => exact Or.inr ⟨img, s, t, by simp [resolveSeq], by simp [resolveSeq], hst⟩
      | cons j rest =>
        have hrel := ih.1 s t j img verb hst
        cases hsub : resolveN fuel s j img verb with
        | none =>
          have hsubt := optRel_none_left hrel hsub
          exact Or.inl ⟨by simp [resolveSeq, hsub], by simp [resolveSeq, hsubt]⟩
        | some pr =>
          obtain ⟨img1, s1⟩ := pr
          obtain ⟨t1, hbt, hc⟩ := optRel_some_left hrel hsub
          have hrel2 := ih.2 s1 t1 rest img1 verb hc
          cases hsub2 : resolveSeq fuel s1 rest img1 verb with
          | none =>
            have hsubt2 := optRel_none_left hrel2 hsub2
            exact Or.inl ⟨by simp [resolveSeq, hsub, hsub2],
                          by simp [resolveSeq, hbt, hsubt2]⟩
          | some pr2 =>
            obtain ⟨img2, s2⟩ := pr2
            obtain ⟨t2, hbt2, hc2⟩ := optRel_some_left hrel2 hsub2
            refine Or.inr ⟨img2, s2, t2, ?_, ?_, hc2⟩
            · simp [resolveSeq, hsub, hsub2]
            · simp [resolveSeq, hbt, hbt2]

/-! ## Lemmas about the update pass -/

/-- The resample count of node `j` (0 for an id not in the heap). -/
def countO (s : OStore) (j : ℕ) : ℕ :=
  match alookup s j with
  | some n => n.updates
  | none => 0

theorem countO_obump (s : OStore) (i j : ℕ) :
    countO (obump s i) j ≤ countO s j + (if j = i then 1 else 0) := by
  by_cases h : j = i
  · subst h
    unfold countO
    rw [obump, alookup_amap]
    cases alookup s j with
    | none => simp
    | some n => simp
  · unfold countO
    rw [obump, alookup_amap_ne _ _ _ _ h, if_neg h]
    omega

theorem countO_obump_ne (s : OStore) (i j : ℕ) (h : j ≠ i) :
    countO (obump s i) j = countO s j := by
  unfold countO
  rw [obump, alookup_amap_ne _ _ _ _ h]

/-- The invariant threaded through one update pass: the history list
stays duplicate-free and only grows, and a node's resample count grows
by one at most when the node newly entered the history. -/
def UpdInv (s : OStore) (h : List ℕ) (s2 : OStore) (h2 : List ℕ) : Prop :=
  h2.Nodup ∧ (∀ j, j ∈ h → j ∈ h2) ∧
  (∀ j, countO s2 j ≤ countO s j + (if j ∈ h2 ∧ j ∉ h then 1 else 0))

theorem updInv_refl (s : OStore) (h : List ℕ) (hnd : h.Nodup) :
    UpdInv s h s h := by
  refine ⟨hnd, fun j hj => hj, fun j => ?_⟩
  split <;> omega

theorem updInv_trans {s : OStore} {h : List ℕ} {s1 : OStore} {h1 : List ℕ}
    {s2 : OStore} {h2 : List ℕ} (g1 : UpdInv s h s1 h1)
    (g2 : UpdInv s1 h1 s2 h2) : UpdInv s h s2 h2 := by
  obtain ⟨nd1, mono1, cnt1⟩ := g1
  obtain ⟨nd2, mono2, cnt2⟩ := g2
  refine ⟨nd2, fun j hj => mono2 j (mono1 j hj), fun j => ?_⟩
  have c1 := cnt1 j
  have c2 := cnt2 j
  by_cases ha : j ∈ h
  · by_cases hb : j ∈ h1
    · by_cases hc : j ∈ h2
      · simp only [ha, hb, hc] at c1 c2 ⊢
        simp at c1 c2 ⊢
        omega
      · exact absurd (mono2 j hb) hc
    · exact absurd (mono1 j ha) hb
  · by_cases hb : j ∈ h1
    · by_cases hc : j ∈ h2
      · simp [ha, hb, hc] at c1 c2 ⊢
        omega
      · exact absurd (mono2 j hb) hc
    · by_cases hc : j ∈ h2
      · simp [ha, hb, hc] at c1 c2 ⊢
        omega
      · simp [ha, hb, hc] at c1 c2 ⊢
        omega

theorem updInv_enter (s : OStore) (h : List ℕ) (i : ℕ) (hnd : h.Nodup)
    (hmem : i ∉ h) : UpdInv s h (obump s i) (h ++ [i]) := by
  refine ⟨?_, fun j hj => List.mem_append_left _ hj, fun j => ?_⟩
  · rw [List.nodup_append]
    refine ⟨hnd, List.nodup_singleton i, ?_⟩
    intro a ha hb
    rw [List.mem_singleton] at hb
    subst hb
    exact hmem ha
  · have hb := countO_obump s i j
    by_cases hji : j = i
    · rw [if_pos ⟨List.mem_append_right _ (by simp [hji]), hji ▸ hmem⟩]
      simpa [hji] using hb
    · rw [countO_obump_ne s i j hji]
      split <;> omega

/-- `__update__`/property-loop preserve the update-pass invariant. -/
theorem updateO_inv : ∀ fuel : ℕ,
    (∀ s h i s2 h2, updateO fuel s h i = some (s2, h2) → h.Nodup →
      UpdInv s h s2 h2) ∧
    (∀ s h props s2 h2, updatePropsO fuel s h props = some (s2, h2) →
      h.Nodup → UpdInv s h s2 h2) := by
  intro fuel
  induction fuel with
  | zero =>
    constructor
    · intro s h i s2 h2 hu
      exact absurd hu (by simp [updateO])
    · intro s h props s2 h2 hu
      exact absurd hu (by simp [updatePropsO])
  | succ fuel ih =>
    constructor
    · intro s h i s2 h2 hu hnd
      rw [updateO] at hu
      by_cases hmem : i ∈ h
      · rw [if_pos hmem] at hu
        simp only [Option.some.injEq, Prod.mk.injEq] at hu
        obtain ⟨h1, h2e⟩ := hu
        subst h1; subst h2e
        exact updInv_refl s h hnd
      · rw [if_neg hmem] at hu
        cases hn : alookup s i with
        | none => rw [hn] at hu; exact absurd hu (by simp)
        | some n =>
          simp only [hn] at hu
          have g1 := updInv_enter s h i hnd hmem
          exact updInv_trans g1
            (ih.2 (obump s i) (h ++ [i]) n.props s2 h2 hu g1.1)
    · intro s h props s2 h2 hu hnd
      cases props with
      | nil =>
        rw [updatePropsO] at hu
        simp only [Option.some.injEq, Prod.mk.injEq] at hu
        obtain ⟨h1, h2e⟩ := hu
        subst h1; subst h2e
        exact updInv_refl s h hnd
      | cons pv rest =>
        rw [updatePropsO] at hu
        cases hpf : propFeatRef pv.2 with
        | none =>
          rw [hpf] at hu
          exact ih.2 s h rest s2 h2 hu hnd
        | some j =>
          simp only [hpf] at hu
          cases hs : updateO fuel s h j with
          | none => rw [hs] at hu; exact absurd hu (by simp)
          | some t1 =>
            obtain ⟨s1, h1⟩ := t1
            simp only [hs] at hu
            have g1 := ih.1 s h j s1 h1 hs hnd
            exact updInv_trans g1 (ih.2 s1 h1 rest s2 h2 hu g1.1)

/-- `__rupdate__` preserves the update-pass invariant. -/
theorem rupdateO_inv : ∀ (fuel : ℕ) (s : OStore) (h : List ℕ) (i : ℕ)
    (s2 : OStore) (h2 : List ℕ),
    rupdateO fuel s h i = some (s2, h2) → h.Nodup → UpdInv s h s2 h2 := by
  intro fuel
  induction fuel with
  | zero =>
    intro s h i s2 h2 hu
    exact absurd hu (by simp [rupdateO])
  | succ fuel ih =>
    intro s h i s2 h2 hu hnd
    rw [rupdateO] at hu
    cases hs : updateO (fuel + 1) s h i with
    | none => rw [hs] at hu; exact absurd hu (by simp)
    | some t1 =>
      obtain ⟨s1, h1⟩ := t1
      simp only [hs] at hu
      have g1 := (updateO_inv (fuel + 1)).1 s h i s1 h1 hs hnd
      cases hn : alookup s1 i with
      | none => rw [hn] at hu; exact absurd hu (by simp)
      | some n =>
        simp only [hn] at hu
        cases hp : n.parent with
        | none =>
          simp only [hp, Option.some.injEq, Prod.mk.injEq] at hu
          obtain ⟨h1e, h2e⟩ := hu
          subst h1e; subst h2e
          exact g1
        | some par =>
          cases par with
          | praw a => simp only [hp] at hu; exact absurd hu (by simp)
          | pimg im => simp only [hp] at hu; exact absurd hu (by simp)
          | pnode j =>
            simp only [hp] at hu
            exact updInv_trans g1 (ih s1 h1 j s2 h2 hu g1.1)

/-- One full `__rupdate__` pass from an empty history resamples every
node's property set at most once. -/
theorem rupdateO_counts (fuel : ℕ) (s : OStore) (i : ℕ) (s2 : OStore)
    (h2 : List ℕ) (hu : rupdateO fuel s [] i = some (s2, h2)) :
    ∀ j, countO s2 j ≤ countO s j + 1 := by
  have g := rupdateO_inv fuel s [] i s2 h2 hu List.nodup_nil
  intro j
  have hc := g.2.2 j
  split at hc <;> omega

/-! ## Lemmas about the newer engine's update -/

theorem amap_const_idem {κ α : Type} [DecidableEq κ] (v : α) (key : κ)
    (l : List (κ × α)) :
    amap (fun _ => v) key (amap (fun _ => v) key l) =
      amap (fun _ => v) key l := by
  induction l with
  | nil => rfl
  | cons hd tl ih =>
    obtain ⟨a, b⟩ := hd
    by_cases h : a = key
    · rw [amap, if_pos h, amap, if_pos h, ih]
    · rw [amap, if_neg h, amap, if_neg h, ih]

/-- After one `update()`, the flag is set, and any further `update()`
before the next resolve is a no-op: it returns the heap unchanged (in
particular it does not resample and does not consume randomness). -/
theorem updN_flagged (rnd : ℕ → ℚ) (k : ℕ) (s : NStore) (i : ℕ)
    (s2 : NStore) (k2 : ℕ) (h : updN rnd k s i = some (s2, k2)) :
    ∀ (rnd2 : ℕ → ℚ) (k3 : ℕ), updN rnd2 k3 s2 i = some (s2, k3) := by
  intro rnd2 k3
  rw [updN] at h
  cases hn : alookup s i with
  | none => rw [hn] at h; exact absurd h (by simp)
  | some n =>
    simp only [hn] at h
    by_cases hf : n.flag
    · rw [if_pos hf] at h
      simp only [Option.some.injEq, Prod.mk.injEq] at h
      obtain ⟨h1, -⟩ := h
      have hl2 : alookup s2 i = some { n with flag := true } := by
        rw [← h1, nset, alookup_amap, hn]; rfl
      rw [updN, hl2]
      simp only [if_pos rfl]
      have : nset s2 i { n with flag := true } = s2 := by
        rw [← h1, nset, nset, amap_const_idem]
      rw [this]
      simp
    · rw [if_neg hf] at h
      simp only [Option.some.injEq, Prod.mk.injEq] at h
      obtain ⟨h1, -⟩ := h
      have hl2 : alookup s2 i = some { n with props := (resampleProps rnd k n.props).1, flag := true, updates := n.updates + 1 } := by
        rw [← h1, nset, alookup_amap, hn]; rfl
      rw [updN, hl2]
      simp only [if_pos rfl]
      have : nset s2 i { n with props := (resampleProps rnd k n.props).1, flag := true, updates := n.updates + 1 } = s2 := by
        rw [← h1, nset, nset, amap_const_idem]
      rw [this]
      simp

/-- On a `Probability` node whose cells are laid out as the constructor
builds them (`feature`, `probability`, `random_number`, in that
insertion order), an update with the flag clear draws exactly one fresh
uniform number into `random_number` and leaves `feature` and
`probability` untouched. -/
theorem updN_prob (rnd : ℕ → ℚ) (k : ℕ) (s : NStore) (i : ℕ)
    (vf vp v0 : Val) (u : ℕ)
    (hn : alookup s i = some { props := [("feature", ⟨NRule.rconst, vf⟩), ("probability", ⟨NRule.rconst, vp⟩), ("random_number", ⟨NRule.runiform, v0⟩)], kind := NKind.probability, verbosity := 2, flag := false, updates := u }) :
    updN rnd k s i = some (nset s i { props := [("feature", ⟨NRule.rconst, vf⟩), ("probability", ⟨NRule.rconst, vp⟩), ("random_number", ⟨NRule.runiform, Val.vrat (rnd k)⟩)], kind := NKind.probability, verbosity := 2, flag := true, updates := u + 1 }, k + 1) := by
  rw [updN, hn]
  simp [resampleProps]

/-! ## A cyclic graph (for the traversal-error claim) -/

/-- Two older-engine features whose `parent` references form a cycle. -/
def cycStore : OStore :=
  [(0, { props := [], parent := some (OParent.pnode 1),
         kind := OKind.leaf Transform.tid, name := "A" }),
   (1, { props := [], parent := some (OParent.pnode 0),
         kind := OKind.leaf Transform.tid, name := "B" })]

/-- What `__resolve__` reads off the cyclic heap: node 0 points to node
1 and back, both with empty property dictionaries and no cache. This is
stable under the counter bumps an update pass performs. -/
def CycLike (s : OStore) : Prop :=
  (∃ n, alookup s 0 = some n ∧ n.parent = some (OParent.pnode 1) ∧
    n.props = ([] : List (String × Val)) ∧ n.cache = none) ∧
  (∃ n, alookup s 1 = some n ∧ n.parent = some (OParent.pnode 0) ∧
    n.props = ([] : List (String × Val)) ∧ n.cache = none)

theorem cycLike_cycStore : CycLike cycStore := by
  constructor
  · exact ⟨_, rfl, rfl, rfl, rfl⟩
  · exact ⟨_, rfl, rfl, rfl, rfl⟩

theorem cycLike_obump (s : OStore) (i : ℕ) (h : CycLike s) :
    CycLike (obump s i) := by
  obtain ⟨⟨n0, hl0, hp0, hq0, hc0⟩, ⟨n1, hl1, hp1, hq1, hc1⟩⟩ := h
  constructor
  · by_cases hi : (0 : ℕ) = i
    · subst hi
      refine ⟨{ n0 with updates := n0.updates + 1 }, ?_, hp0, hq0, hc0⟩
      rw [obump, alookup_amap, hl0]; rfl
    · exact ⟨n0, by rw [obump, alookup_amap_ne _ _ _ _ hi]; exact hl0,
        hp0, hq0, hc0⟩
  · by_cases hi : (1 : ℕ) = i
    · subst hi
      refine ⟨{ n1 with updates := n1.updates + 1 }, ?_, hp1, hq1, hc1⟩
      rw [obump, alookup_amap, hl1]; rfl
    · exact ⟨n1, by rw [obump, alookup_amap_ne _ _ _ _ hi]; exact hl1,
        hp1, hq1, hc1⟩

/-- `__resolve__` exhausts any fuel bound on the cyclic heap: the
recursion into the parent happens before any cache is written, so no
fuel bound suffices — the Python original recurses until the
interpreter's stack is exhausted, and no explicit cycle check exists. -/
theorem resolveO_cyc : ∀ (fuel : ℕ) (rnd : ℕ → ℚ) (k : ℕ) (sh : ℕ × ℕ),
    resolveO fuel rnd cycStore k 0 sh = none ∧
    resolveO fuel rnd cycStore k 1 sh = none := by
  intro fuel
  induction fuel with
  | zero => intro rnd k sh; exact ⟨rfl, rfl⟩
  | succ fuel ih =>
    intro rnd k sh
    constructor
    · rw [resolveO]
      have h1 := (ih rnd k sh).2
      simp only [cycStore] at h1 ⊢
      simp [alookup, h1]
    · rw [resolveO]
      have h0 := (ih rnd k sh).1
      simp only [cycStore] at h0 ⊢
      simp [alookup, h0]

/-- `__rupdate__` exhausts any fuel bound on any heap shaped like the
cycle: `__update__`'s history check prevents re-resampling but the
recursion into the parent is unconditional. -/
theorem rupdateO_cyc : ∀ (fuel : ℕ) (s : OStore) (h : List ℕ),
    CycLike s → rupdateO fuel s h 0 = none ∧ rupdateO fuel s h 1 = none := by
  intro fuel
  induction fuel with
  | zero => intro s h _; exact ⟨rfl, rfl⟩
  | succ fuel ih =>
    intro s h hcyc
    obtain ⟨⟨n0, hl0, hp0, hq0, hc0⟩, ⟨n1, hl1, hp1, hq1, hc1⟩⟩ := hcyc
    constructor
    · rw [rupdateO]
      by_cases hmem : (0 : ℕ) ∈ h
      · rw [updateO, if_pos hmem]
        simp only [hl0, hp0]
        exact (ih s h ⟨⟨n0, hl0, hp0, hq0, hc0⟩, ⟨n1, hl1, hp1, hq1, hc1⟩⟩).2
      · rw [updateO, if_neg hmem]
        simp only [hl0, hq0]
        cases fuel with
        | zero => rw [updatePropsO]
        | succ f2 =>
          rw [updatePropsO]
          have hcyc2 : CycLike (obump s 0) :=
            cycLike_obump s 0 ⟨⟨n0, hl0, hp0, hq0, hc0⟩, ⟨n1, hl1, hp1, hq1, hc1⟩⟩
          obtain ⟨m0, hm0, hmp0, hmq0, hmc0⟩ := hcyc2.1
          simp only [hm0, hmp0]
          exact (ih (obump s 0) (h ++ [0]) hcyc2).2
    · rw [rupdateO]
      by_cases hmem : (1 : ℕ) ∈ h
      · rw [updateO, if_pos hmem]
        simp only [hl1, hp1]
        exact (ih s h ⟨⟨n0, hl0, hp0, hq0, hc0⟩, ⟨n1, hl1, hp1, hq1, hc1⟩⟩).1
      · rw [updateO, if_neg hmem]
        simp only [hl1, hq1]
        cases fuel with
        | zero => rw [updatePropsO]
        | succ f2 =>
          rw [updatePropsO]
          have hcyc2 : CycLike (obump s 1) :=
            cycLike_obump s 1 ⟨⟨n0, hl0, hp0, hq0, hc0⟩, ⟨n1, hl1, hp1, hq1, hc1⟩⟩
          obtain ⟨m1, hm1, hmp1, hmq1, hmc1⟩ := hcyc2.2
          simp only [hm1, hmp1]
          exact (ih (obump s 1) (h ++ [1]) hcyc2).1

/-! ## Lemmas about the composition operators -/

theorem alookup_append_left {κ α : Type} [DecidableEq κ]
    (l1 l2 : List (κ × α)) (k : κ) (v : α) (h : alookup l1 k = some v) :
    alookup (l1 ++ l2) k = some v := by
  induction l1 with
  | nil => exact absurd h (by simp [alookup])
  | cons hd tl ih =>
    obtain ⟨a, b⟩ := hd
    rw [alookup] at h
    by_cases ha : a = k
    · rw [if_pos ha] at h
      rw [List.cons_append, alookup, if_pos ha]
      exact h
    · rw [if_neg ha] at h
      rw [List.cons_append, alookup, if_neg ha]
      exact ih h

theorem alookup_append_right {κ α : Type} [DecidableEq κ]
    (l1 l2 : List (κ × α)) (k : κ) (h : alookup l1 k = none) :
    alookup (l1 ++ l2) k = alookup l2 k := by
  induction l1 with
  | nil => rfl
  | cons hd tl ih =>
    obtain ⟨a, b⟩ := hd
    rw [alookup] at h
    by_cases ha : a = k
    · rw [if_pos ha] at h; exact absurd h (by simp)
    · rw [if_neg ha] at h
      rw [List.cons_append, alookup, if_neg ha]
      exact ih h

theorem alookup_single_ne {κ α : Type} [DecidableEq κ] (a : κ) (v : α)
    (j : κ) (h : a ≠ j) : alookup [(a, v)] j = none := by
  rw [alookup, if_neg h]; rfl

theorem alookup_single_self {κ α : Type} [DecidableEq κ] (a : κ) (v : α) :
    alookup [(a, v)] a = some v := by
  rw [alookup, if_pos rfl]

theorem alookup_append_single_ne {κ α : Type} [DecidableEq κ]
    (l : List (κ × α)) (a : κ) (v : α) (j : κ) (h : j ≠ a) :
    alookup (l ++ [(a, v)]) j = alookup l j := by
  cases hl : alookup l j with
  | some w => exact alookup_append_left l _ j w hl
  | none =>
    rw [alookup_append_right l _ j hl, alookup_single_ne a v j (Ne.symm h)]

theorem alookup_append_single_self {κ α : Type} [DecidableEq κ]
    (l : List (κ × α)) (a : κ) (v : α) (h : alookup l a = none) :
    alookup (l ++ [(a, v)]) a = some v := by
  rw [alookup_append_right l _ a h, alookup_single_self]

/-- No object with id at or above `next` exists yet. -/
def freshBound (s : OStore) (next : ℕ) : Prop :=
  ∀ j, next ≤ j → alookup s j = none

/-- What one stage of a deep copy guarantees: the id cursor only grows,
pre-existing objects are untouched, and — when all ids at or above
`next` were unused — the heap stays fresh above the new cursor while
every newly created object's feature parent is itself newly created. -/
def CopySpec (s : OStore) (next : ℕ) (s2 : OStore) (nx : ℕ) : Prop :=
  next ≤ nx ∧
  (∀ j, j < next → alookup s2 j = alookup s j) ∧
  (freshBound s next →
    freshBound s2 nx ∧
    ∀ j n, next ≤ j → alookup s2 j = some n →
      ∀ k, n.parent = some (OParent.pnode k) → next ≤ k)

theorem copySpec_refl (s : OStore) (next : ℕ) : CopySpec s next s next := by
  refine ⟨le_refl _, fun j _ => rfl, fun fb => ⟨fb, fun j n hj hl => ?_⟩⟩
  rw [fb j hj] at hl
  exact absurd hl (by simp)

theorem copySpec_trans {s : OStore} {next : ℕ} {s1 : OStore} {nx1 : ℕ}
    {s2 : OStore} {nx2 : ℕ} (c1 : CopySpec s next s1 nx1)
    (c2 : CopySpec s1 nx1 s2 nx2) : CopySpec s next s2 nx2 := by
  obtain ⟨le1, pres1, fr1⟩ := c1
  obtain ⟨le2, pres2, fr2⟩ := c2
  refine ⟨le_trans le1 le2, fun j hj => ?_, fun fb => ?_⟩
  · rw [pres2 j (lt_of_lt_of_le hj le1), pres1 j hj]
  · obtain ⟨fb1, pf1⟩ := fr1 fb
    obtain ⟨fb2, pf2⟩ := fr2 fb1
    refine ⟨fb2, fun j n hj hl k hk => ?_⟩
    by_cases hj1 : nx1 ≤ j
    · exact le_trans le1 (pf2 j n hj1 hl k hk)
    · push_neg at hj1
      rw [pres2 j hj1] at hl
      exact pf1 j n hj hl k hk

theorem copySpec_append {s : OStore} {next : ℕ} {s2 : OStore} {nx : ℕ}
    (nd : ONode) (h : CopySpec s next s2 nx)
    (hp : ∀ k, nd.parent = some (OParent.pnode k) → next ≤ k) :
    CopySpec s next (s2 ++ [(nx, nd)]) (nx + 1) := by
  obtain ⟨le1, pres1, fr1⟩ := h
  refine ⟨by omega, fun j hj => ?_, fun fb => ?_⟩
  · rw [alookup_append_single_ne s2 nx nd j (by omega), pres1 j hj]
  · obtain ⟨fb1, pf1⟩ := fr1 fb
    constructor
    · intro j hj
      rw [alookup_append_right s2 _ j (fb1 j (by omega)),
        alookup_single_ne nx nd j (by omega)]
    · intro j n hj hl k hk
      by_cases hjn : j = nx
      · subst hjn
        rw [alookup_append_single_self s2 j nd (fb1 j (le_refl _))] at hl
        have : nd = n := by injection hl
        subst this
        exact hp k hk
      · rw [alookup_append_single_ne s2 nx nd j hjn] at hl
        exact pf1 j n hj hl k hk

/-- `copy.deepcopy` of a feature graph: the copy's id is fresh, the id
cursor grows, pre-existing objects are never modified, and the copied
subgraph's parent chain stays inside the newly allocated region. -/
theorem deepcopyO_spec : ∀ fuel : ℕ,
    (∀ s next i c s2 nx, deepcopyO fuel s next i = some (c, s2, nx) →
      next ≤ c ∧ c < nx ∧ CopySpec s next s2 nx) ∧
    (∀ s next props ps s2 nx,
      deepcopyPropsO fuel s next props = some (ps, s2, nx) →
      CopySpec s next s2 nx) ∧
    (∀ s next v v2 s2 nx, deepcopyValO fuel s next v = some (v2, s2, nx) →
      CopySpec s next s2 nx) ∧
    (∀ s next l l2 s2 nx, deepcopyIdsO fuel s next l = some (l2, s2, nx) →
      CopySpec s next s2 nx) := by
  intro fuel
  induction fuel with
  | zero =>
    refine ⟨?_, ?_, ?_, ?_⟩
    · intro s next i c s2 nx h; exact absurd h (by simp [deepcopyO])
    · intro s next props ps s2 nx h; exact absurd h (by simp [deepcopyPropsO])
    · intro s next v v2 s2 nx h; exact absurd h (by simp [deepcopyValO])
    · intro s next l l2 s2 nx h; exact absurd h (by simp [deepcopyIdsO])
  | succ fuel ih =>
    refine ⟨?_, ?_, ?_, ?_⟩
    · intro s next i c s2 nx h
      rw [deepcopyO] at h
      cases hn : alookup s i with
      | none => rw [hn] at h; exact absurd h (by simp)
      | some n =>
        simp only [hn] at h
        cases hp : n.parent with
        | none =>
          simp only [hp] at h
          cases hps : deepcopyPropsO fuel s next n.props with
          | none => rw [hps] at h; exact absurd h (by simp)
          | some t =>
            obtain ⟨props2, s2x, nx2⟩ := t
            simp only [hps, Option.some.injEq, Prod.mk.injEq] at h
            obtain ⟨hc, hs2, hnx⟩ := h
            subst hc; subst hs2; subst hnx
            have cps := ih.2.1 s next n.props props2 s2x nx2 hps
            refine ⟨cps.1, by omega, copySpec_append _ cps ?_⟩
            intro k hk
            exact absurd hk (by simp)
        | some par =>
          cases par with
          | praw a =>
            simp only [hp] at h
            cases hps : deepcopyPropsO fuel s next n.props with
            | none => rw [hps] at h; exact absurd h (by simp)
            | some t =>
              obtain ⟨props2, s2x, nx2⟩ := t
              simp only [hps, Option.some.injEq, Prod.mk.injEq] at h
              obtain ⟨hc, hs2, hnx⟩ := h
              subst hc; subst hs2; subst hnx
              have cps := ih.2.1 s next n.props props2 s2x nx2 hps
              refine ⟨cps.1, by omega, copySpec_append _ cps ?_⟩
              intro k hk
              exact absurd hk (by simp)
          | pimg im =>
            simp only [hp] at h
            cases hps : deepcopyPropsO fuel s next n.props with
            | none => rw [hps] at h; exact absurd h (by simp)
            | some t =>
              obtain ⟨props2, s2x, nx2⟩ := t
              simp only [hps, Option.some.injEq, Prod.mk.injEq] at h
              obtain ⟨hc, hs2, hnx⟩ := h
              subst hc; subst hs2; subst hnx
              have cps := ih.2.1 s next n.props props2 s2x nx2 hps
              refine ⟨cps.1, by omega, copySpec_append _ cps ?_⟩
              intro k hk
              exact absurd hk (by simp)
          | pnode j =>
            simp only [hp] at h
            cases hdc : deepcopyO fuel s next j with
            | none => rw [hdc] at h; exact absurd h (by simp)
            | some t =>
              obtain ⟨j2, s1, nx1⟩ := t
              simp only [hdc] at h
              obtain ⟨hj2a, hj2b, cs1⟩ := ih.1 s next j j2 s1 nx1 hdc
              cases hps : deepcopyPropsO fuel s1 nx1 n.props with
              | none => rw [hps] at h; exact absurd h (by simp)
              | some t2 =>
                obtain ⟨props2, s2x, nx2⟩ := t2
                simp only [hps, Option.some.injEq, Prod.mk.injEq] at h
                obtain ⟨hc, hs2, hnx⟩ := h
                subst hc; subst hs2; subst hnx
                have cps := ih.2.1 s1 nx1 n.props props2 s2x nx2 hps
                have ctr := copySpec_trans cs1 cps
                have hle : next ≤ nx1 := cs1.1
                have hle2 : nx1 ≤ nx2 := cps.1
                refine ⟨by omega, by omega, copySpec_append _ ctr ?_⟩
                intro k hk
                simp only at hk
                have : j2 = k := by injection hk with hk2; injection hk2
                subst this
                exact hj2a
    · intro s next props ps s2 nx h
      cases props with
      | nil =>
        rw [deepcopyPropsO] at h
        simp only [Option.some.injEq, Prod.mk.injEq] at h
        obtain ⟨-, hs2, hnx⟩ := h
        subst hs2; subst hnx
        exact copySpec_refl s next
      | cons pv rest =>
        obtain ⟨key, v⟩ := pv
        rw [deepcopyPropsO] at h
        cases hv : deepcopyValO fuel s next v with
        | none => rw [hv] at h; exact absurd h (by simp)
        | some t =>
          obtain ⟨v2, s1, nx1⟩ := t
          simp only [hv] at h
          cases hr : deepcopyPropsO fuel s1 nx1 rest with
          | none => rw [hr] at h; exact absurd h (by simp)
          | some t2 =>
            obtain ⟨rest2, s2x, nx2⟩ := t2
            simp only [hr, Option.some.injEq, Prod.mk.injEq] at h
            obtain ⟨-, hs2, hnx⟩ := h
            subst hs2; subst hnx
            exact copySpec_trans (ih.2.2.1 s next v v2 s1 nx1 hv)
              (ih.2.1 s1 nx1 rest rest2 s2x nx2 hr)
    · intro s next v v2 s2 nx h
      cases v with
      | vfeat j =>
        rw [deepcopyValO] at h
        cases hdc : deepcopyO fuel s next j with
        | none => rw [hdc] at h; exact absurd h (by simp)
        | some t =>
          obtain ⟨j2, s1, nx1⟩ := t
          simp only [hdc, Option.some.injEq, Prod.mk.injEq] at h
          obtain ⟨-, hs2, hnx⟩ := h
          rw [← hs2, ← hnx]
          exact (ih.1 s next j j2 s1 nx1 hdc).2.2
      | vfeats l =>
        rw [deepcopyValO] at h
        cases hdc : deepcopyIdsO fuel s next l with
        | none => rw [hdc] at h; exact absurd h (by simp)
        | some t =>
          obtain ⟨l2, s1, nx1⟩ := t
          simp only [hdc, Option.some.injEq, Prod.mk.injEq] at h
          obtain ⟨-, hs2, hnx⟩ := h
          rw [← hs2, ← hnx]
          exact ih.2.2.2 s next l l2 s1 nx1 hdc
      | vint z =>
        rw [deepcopyValO] at h
        simp only [Option.some.injEq, Prod.mk.injEq] at h
        obtain ⟨-, hs2, hnx⟩ := h
        subst hs2; subst hnx
        exact copySpec_refl s next
      | vrat q =>
        rw [deepcopyValO] at h
        simp only [Option.some.injEq, Prod.mk.injEq] at h
        obtain ⟨-, hs2, hnx⟩ := h
        subst hs2; subst hnx
        exact copySpec_refl s next
      | vstr st =>
        rw [deepcopyValO] at h
        simp only [Option.some.injEq, Prod.mk.injEq] at h
        obtain ⟨-, hs2, hnx⟩ := h
        subst hs2; subst hnx
        exact copySpec_refl s next
    · intro s next l l2 s2 nx h
      cases l with
      | nil =>
        rw [deepcopyIdsO] at h
        simp only [Option.some.injEq, Prod.mk.injEq] at h
        obtain ⟨-, hs2, hnx⟩ := h
        subst hs2; subst hnx
        exact copySpec_refl s next
      | cons j rest =>
        rw [deepcopyIdsO] at h
        cases hdc : deepcopyO fuel s next j with
        | none => rw [hdc] at h; exact absurd h (by simp)
        | some t =>
          obtain ⟨j2, s1, nx1⟩ := t
          simp only [hdc] at h
          cases hr : deepcopyIdsO fuel s1 nx1 rest with
          | none => rw [hr] at h; exact absurd h (by simp)
          | some t2 =>
            obtain ⟨rest2, s2x, nx2⟩ := t2
            simp only [hr, Option.some.injEq, Prod.mk.injEq] at h
            obtain ⟨-, hs2, hnx⟩ := h
            subst hs2; subst hnx
            exact copySpec_trans (ih.1 s next j j2 s1 nx1 hdc).2.2
              (ih.2.2.2 s1 nx1 rest rest2 s2x nx2 hr)

/-- Following the parent chain from a newly allocated node stays inside
the newly allocated region. -/
theorem getRootO_fresh : ∀ (fuel : ℕ) (s : OStore) (lo i r : ℕ),
    (∀ j n, lo ≤ j → alookup s j = some n →
      ∀ k, n.parent = some (OParent.pnode k) → lo ≤ k) →
    lo ≤ i → getRootO fuel s i = some r → lo ≤ r := by
  intro fuel
  induction fuel with
  | zero =>
    intro s lo i r _ _ h
    exact absurd h (by simp [getRootO])
  | succ fuel ih =>
    intro s lo i r hP hi h
    rw [getRootO] at h
    cases hn : alookup s i with
    | none => rw [hn] at h; exact absurd h (by simp)
    | some n =>
      simp only [hn] at h
      cases hp : n.parent with
      | none =>
        simp only [hp, Option.some.injEq] at h
        rw [← h]; exact hi
      | some par =>
        cases par with
        | pnode j =>
          simp only [hp] at h
          exact ih s lo j r hP (hP i n hi hn j hp) h
        | praw a => simp only [hp] at h; exact absurd h (by simp)
        | pimg im => simp only [hp] at h; exact absurd h (by simp)

/-- `setParent` applied to a freshly copied node mutates only freshly
copied objects (the copy itself, or the root of its copied chain), and
hands back either the copy or a fresh `Group`. -/
theorem setParentO_pres (fuel : ℕ) (s : OStore) (ci : ℕ) (pref : OParent)
    (nx0 lo res : ℕ) (s2 : OStore) (nx2 : ℕ)
    (h : setParentO fuel s ci pref nx0 = some (res, s2, nx2))
    (hci : lo ≤ ci) (hnx : lo ≤ nx0)
    (hP : ∀ j n, lo ≤ j → alookup s j = some n →
      ∀ k, n.parent = some (OParent.pnode k) → lo ≤ k) :
    (∀ j, j < lo → alookup s2 j = alookup s j) ∧ lo ≤ res := by
  rw [setParentO] at h
  cases hn : alookup s ci with
  | none => rw [hn] at h; exact absurd h (by simp)
  | some n =>
    simp only [hn] at h
    cases hp : n.parent with
    | none =>
      simp only [hp, Option.some.injEq, Prod.mk.injEq] at h
      obtain ⟨h1, h2, -⟩ := h
      constructor
      · intro j hj
        rw [← h2, oset, alookup_amap_ne _ _ _ _ (by omega : j ≠ ci)]
      · rw [← h1]; exact hci
    | some par =>
      simp only [hp] at h
      cases hr : getRootO fuel s ci with
      | none => rw [hr] at h; exact absurd h (by simp)
      | some r =>
        simp only [hr] at h
        have hrlo : lo ≤ r := getRootO_fresh fuel s lo ci r hP hci hr
        cases hrn : alookup s r with
        | none => rw [hrn] at h; exact absurd h (by simp)
        | some rn =>
          simp only [hrn, Option.some.injEq, Prod.mk.injEq] at h
          obtain ⟨h1, h2, -⟩ := h
          constructor
          · intro j hj
            rw [← h2, alookup_append_single_ne _ nx0 _ j (by omega),
              oset, alookup_amap_ne _ _ _ _ (by omega : j ≠ r)]
          · rw [← h1]; exact hnx

/-- The older `__add__` leaves both operands' objects untouched and
returns a freshly allocated node. -/
theorem addO_pres (fuel : ℕ) (s : OStore) (a b next res : ℕ)
    (s2 : OStore) (nx : ℕ) (h : addO fuel s a b next = some (res, s2, nx))
    (fb : freshBound s next) (ha : a < next) (hb : b < next) :
    alookup s2 a = alookup s a ∧ alookup s2 b = alookup s b ∧
      next ≤ res := by
  rw [addO] at h
  cases hdc : deepcopyO fuel s next b with
  | none => rw [hdc] at h; exact absurd h (by simp)
  | some t =>
    obtain ⟨c, s1, nx1⟩ := t
    simp only [hdc] at h
    obtain ⟨hca, hcb, cs⟩ := (deepcopyO_spec fuel).1 s next b c s1 nx1 hdc
    obtain ⟨hle, hpres, hfr⟩ := cs
    obtain ⟨fb1, hP⟩ := hfr fb
    obtain ⟨hpres2, hres⟩ := setParentO_pres fuel s1 c (OParent.pnode a)
      nx1 next res s2 nx h hca hle hP
    exact ⟨by rw [hpres2 a ha, hpres a ha],
           by rw [hpres2 b hb, hpres b hb], hres⟩

/-- The older `__mul__` leaves the operand's objects untouched and
returns a freshly allocated `Group`. -/
theorem mulO_pres (fuel : ℕ) (s : OStore) (a next : ℕ) (p : ℚ)
    (res : ℕ) (s2 : OStore) (nx : ℕ)
    (h : mulO fuel s a p next = some (res, s2, nx)) (ha : a < next) :
    alookup s2 a = alookup s a ∧ next ≤ res := by
  rw [mulO] at h
  cases hdc : deepcopyO fuel s next a with
  | none => rw [hdc] at h; exact absurd h (by simp)
  | some t =>
    obtain ⟨c, s1, nx1⟩ := t
    simp only [hdc, Option.some.injEq, Prod.mk.injEq] at h
    obtain ⟨h1, h2, -⟩ := h
    obtain ⟨hca, hcb, cs⟩ := (deepcopyO_spec fuel).1 s next a c s1 nx1 hdc
    obtain ⟨hle, hpres, -⟩ := cs
    constructor
    · rw [← h2, alookup_append_single_ne s1 nx1 _ a (by omega),
        hpres a ha]
    · rw [← h1]; omega

/-- Gate decisions read off unchanged property currents are unchanged. -/
theorem probDecision_eraseF {s t : NStore} (h : eraseF s = eraseF t)
    (j : ℕ) : probDecision s j = probDecision t j := by
  have hlk := eraseF_lookup h j
  cases hn : alookup s j with
  | none =>
    cases hm : alookup t j with
    | none => simp only [probDecision, hn, hm]
    | some m => rw [hn, hm] at hlk; exact absurd hlk (by simp)
  | some n =>
    cases hm : alookup t j with
    | none => rw [hn, hm] at hlk; exact absurd hlk (by simp)
    | some m =>
      rw [hn, hm] at hlk
      have hnm : eraseNodeFlag n = eraseNodeFlag m := by simpa using hlk
      obtain ⟨hp, -, -⟩ := eraseNodeFlag_fields hnm
      simp only [probDecision, hn, hm, hp]

/-! ## Concrete fixtures for witnesses and counterexamples -/

/-- An all-zeros draw stream. -/
def rnd0 : ℕ → ℚ := fun _ => 0

/-- An all-ones draw stream. -/
def rnd1 : ℕ → ℚ := fun _ => 1

def wA : ONode :=
  { props := [("c", Val.vrat 3)], kind := OKind.leaf Transform.tid,
    name := "A" }

def wB : ONode :=
  { props := [("d", Val.vrat 2)], kind := OKind.leaf Transform.tid,
    name := "B" }

def wS : OStore := [(0, wA)]

def wIm : Image :=
  ⟨zerosP 1 2, [[("c", Val.vrat 3), ("name", Val.vstr "A")]]⟩

def wN : NNode :=
  { props := [("c", ⟨NRule.rconst, Val.vrat 3⟩)],
    kind := NKind.leaf Transform.tid "Blur" }

def wNS : NStore := [(0, wN)]

def wImN : Image :=
  ⟨zerosP 1 2, [[("c", Val.vrat 3), ("name", Val.vstr "Blur")]]⟩

/-- A two-node chain: node 1 has node 0 as parent. -/
def wC : OStore := [(0, wA), (1, { wB with parent := some (OParent.pnode 0) })]

def c3S : OStore := [(0, wA), (1, wB)]

def c5In : Image := ⟨[[5]], []⟩

def c5N : ONode :=
  { props := [], parent := some (OParent.pimg c5In), probability := 0,
    kind := OKind.leaf Transform.tid, name := "G" }

def c5S : OStore := [(0, c5N)]

def c6In : Image := ⟨[[5]], [[("src", Val.vint 7)]]⟩

def c6N : ONode :=
  { props := [("q", Val.vrat 9)], parent := some (OParent.pimg c6In),
    probability := 0, kind := OKind.leaf Transform.tid, name := "G" }

def c6S : OStore := [(0, c6N)]

def c7N : NNode :=
  { props := [("num_duplicates", ⟨NRule.rconst, Val.vint (-1)⟩),
              ("features", ⟨NRule.rconst, Val.vfeats []⟩)],
    kind := NKind.duplicate, verbosity := 2 }

def c7S : NStore := [(0, c7N)]

def c7img : Image := ⟨[[3]], []⟩

/-- A `Probability` node gating feature 0 with probability 1, current
draw 0. -/
def c10P : NNode :=
  { props := [("feature", ⟨NRule.rconst, Val.vfeat 0⟩),
              ("probability", ⟨NRule.rconst, Val.vrat 1⟩),
              ("random_number", ⟨NRule.runiform, Val.vrat 0⟩)],
    kind := NKind.probability, verbosity := 2 }

def c10S : NStore := [(0, wN), (1, c10P)]

/-! ## The claims -/

/-- C1: two consecutive resolve calls on the same node with no
intervening update return identical results. In the older engine the
second call is answered from the `cache` field the first call wrote,
whatever fuel, random stream and draw position the second call uses; in
the newer engine the first call changes nothing but the
`has_updated_since_last_resolve` flags, so the second call reproduces
the same payload and provenance. -/
theorem c1_repeat_resolve_identical :
    (∀ (fuel : ℕ) (rnd : ℕ → ℚ) (s : OStore) (k i : ℕ) (sh : ℕ × ℕ)
       (im : Image) (s2 : OStore) (k2 : ℕ),
       resolveO fuel rnd s k i sh = some (im, s2, k2) →
       ∀ (fuel2 : ℕ) (rnd2 : ℕ → ℚ) (k3 : ℕ),
         resolveO (fuel2 + 1) rnd2 s2 k3 i sh = some (im, s2, k3)) ∧
    (∀ (fuel : ℕ) (s : NStore) (i : ℕ) (img : Image) (verb : Option ℕ)
       (r : Image) (s2 : NStore),
       resolveN fuel s i img verb = some (r, s2) →
       ∃ s3, resolveN fuel s2 i img verb = some (r, s3)) := by
  constructor
  · intro fuel rnd s k i sh im s2 k2 h fuel2 rnd2 k3
    exact resolveO_again fuel fuel2 rnd rnd2 s k k3 i sh im s2 k2 h
  · intro fuel s i img verb r s2 h
    have e := (resolveN_eraseF fuel).1 s i img verb r s2 h
    have hrel := (resolveN_congr fuel).1 s s2 i img verb e.symm
    obtain ⟨t1, ht, -⟩ := optRel_some_left hrel h
    exact ⟨t1, ht⟩

/-- Witness for C1 at a concrete one-node graph in each engine. -/
theorem c1_witness :
    resolveO 4 rnd0 (osetCache wS 0 wIm) 7 0 (1, 2) =
      some (wIm, osetCache wS 0 wIm, 7) ∧
    (∃ s3, resolveN 5 (nsetFlag wNS 0 false) 0 ⟨zerosP 1 2, []⟩ none =
      some (wImN, s3)) :=
  ⟨c1_repeat_resolve_identical.1 5 rnd0 wS 0 0 (1, 2) wIm
     (osetCache wS 0 wIm) 1 (by rfl) 3 rnd0 7,
   c1_repeat_resolve_identical.2 5 wNS 0 ⟨zerosP 1 2, []⟩ none wImN
     (nsetFlag wNS 0 false) (by rfl)⟩

/-- C2: within one update pass a node is resampled at most once. In the
older engine one full `__rupdate__` pass from an empty history bumps no
node's resample counter by more than one, however many paths reach it;
in the newer engine a second `update()` with the
`has_updated_since_last_resolve` flag already set is a no-op on the
object (same heap, no randomness consumed). -/
theorem c2_resample_at_most_once :
    (∀ (fuel : ℕ) (s : OStore) (i : ℕ) (s2 : OStore) (h2 : List ℕ),
       rupdateO fuel s [] i = some (s2, h2) →
       ∀ j, countO s2 j ≤ countO s j + 1) ∧
    (∀ (rnd : ℕ → ℚ) (k : ℕ) (s : NStore) (i : ℕ) (s2 : NStore) (k2 : ℕ),
       updN rnd k s i = some (s2, k2) →
       ∀ (rnd2 : ℕ → ℚ) (k3 : ℕ), updN rnd2 k3 s2 i = some (s2, k3)) := by
  constructor
  · intro fuel s i s2 h2 hu
    exact rupdateO_counts fuel s i s2 h2 hu
  · intro rnd k s i s2 k2 h
    exact updN_flagged rnd k s i s2 k2 h

/-- Witness for C2 on a two-node chain (older) and a one-node heap
(newer). -/
theorem c2_witness :
    countO (obump (obump wC 1) 0) 0 ≤ countO wC 0 + 1 ∧
    updN rnd1 9 (nset wNS 0 { wN with flag := true, updates := 1 }) 0 =
      some (nset wNS 0 { wN with flag := true, updates := 1 }, 9) :=
  ⟨c2_resample_at_most_once.1 5 wC 1 (obump (obump wC 1) 0) [1, 0]
     (by rfl) 0,
   c2_resample_at_most_once.2 rnd0 0 wNS 0
     (nset wNS 0 { wN with flag := true, updates := 1 }) 0 (by rfl)
     rnd1 9⟩

/-- C3 counterexample: building `A + B` in the older engine attaches the
left operand `A` — object id 0 — by reference as the parent of the new
node: the built graph shares node 0 with the original operand, so the
operand attached as upstream is not copied. -/
theorem c3_counterexample :
    (addO 9 c3S 0 1 2).map (fun t => (alookup t.2.1 t.1).map ONode.parent) =
      some (some (some (OParent.pnode 0))) := by rfl

/-- C3 (amended): every composition operator returns a freshly
allocated node and mutates neither operand's stored record — but the
operands are not always copied. The older `+` deep-copies only the
downstream (right) operand and attaches the upstream (left) operand by
reference; the older `*` deep-copies its operand into a fresh `Group`;
the newer `+`, `*` and `**` attach their operands by reference without
any copy. -/
theorem c3_operators_no_mutation :
    (∀ (fuel : ℕ) (s : OStore) (a b next res : ℕ) (s2 : OStore) (nx : ℕ),
       addO fuel s a b next = some (res, s2, nx) → freshBound s next →
       a < next → b < next →
       alookup s2 a = alookup s a ∧ alookup s2 b = alookup s b ∧
         next ≤ res) ∧
    (∀ (fuel : ℕ) (s : OStore) (a next : ℕ) (p : ℚ) (res : ℕ)
       (s2 : OStore) (nx : ℕ),
       mulO fuel s a p next = some (res, s2, nx) → a < next →
       alookup s2 a = alookup s a ∧ next ≤ res) ∧
    (∀ (s : NStore) (i j next a : ℕ), a ≠ next →
       alookup (addN s i j next).2.1 a = alookup s a) ∧
    (∀ (s : NStore) (i : ℕ) (p r0 : ℚ) (next a : ℕ), a ≠ next →
       alookup (mulN s i p r0 next).2.1 a = alookup s a) ∧
    (∀ (s : NStore) (i : ℕ) (nd : Val) (next a : ℕ), a ≠ next →
       alookup (powN s i nd next).2.1 a = alookup s a) ∧
    (∀ (s : NStore) (i j next : ℕ), alookup s next = none →
       alookup (addN s i j next).2.1 next = some
         { props := [("feature_1", ⟨NRule.rconst, Val.vfeat i⟩),
                     ("feature_2", ⟨NRule.rconst, Val.vfeat j⟩)],
           kind := NKind.branch, verbosity := 2, flag := false,
           updates := 0 }) := by
  refine ⟨?_, ?_, ?_, ?_, ?_, ?_⟩
  · intro fuel s a b next res s2 nx h fb ha hb
    exact addO_pres fuel s a b next res s2 nx h fb ha hb
  · intro fuel s a next p res s2 nx h ha
    exact mulO_pres fuel s a next p res s2 nx h ha
  · intro s i j next a hne
    exact alookup_append_single_ne s next _ a hne
  · intro s i p r0 next a hne
    exact alookup_append_single_ne s next _ a hne
  · intro s i nd next a hne
    exact alookup_append_single_ne s next _ a hne
  · intro s i j next hfresh
    exact alookup_append_single_self s next _ hfresh

/-- Witness for C3 on a concrete two-node heap. -/
theorem c3_witness :
    (alookup (oset (c3S ++ [(2, wB)]) 2
        { wB with parent := some (OParent.pnode 0) }) 0 = alookup c3S 0 ∧
      alookup (oset (c3S ++ [(2, wB)]) 2
        { wB with parent := some (OParent.pnode 0) }) 1 = alookup c3S 1 ∧
      2 ≤ 2) ∧
    alookup (addN wNS 0 0 1).2.1 0 = alookup wNS 0 :=
  ⟨c3_operators_no_mutation.1 9 c3S 0 1 2 2
     (oset (c3S ++ [(2, wB)]) 2 { wB with parent := some (OParent.pnode 0) })
     3 (by rfl)
     (by
       intro j hj
       rw [c3S, alookup, if_neg (by omega), alookup, if_neg (by omega),
         alookup])
     (by omega) (by omega),
   c3_operators_no_mutation.2.2.1 wNS 0 0 1 0 (by omega)⟩

/-- C4 counterexample: on the concrete two-node cyclic graph, neither
`__resolve__` nor `__rupdate__` raises any `TraversalError` (no such
error exists in the code): with a generous recursion budget of 100 both
are still recursing — the embedding's fuel exhaustion, the Python
original's stack exhaustion — instead of returning an explicit error. -/
theorem c4_counterexample :
    resolveO 100 rnd0 cycStore 0 0 (1, 1) = none ∧
    rupdateO 100 cycStore [] 0 = none :=
  ⟨(resolveO_cyc 100 rnd0 0 (1, 1)).1,
   (rupdateO_cyc 100 cycStore [] cycLike_cycStore).1⟩

/-- C4 (amended): neither update nor resolve detects a cycle or raises
a `TraversalError`. On the cyclic graph `__resolve__` recurses into the
parent before any cache is written and `__rupdate__` recurses into the
parent unconditionally, so both exhaust every fuel bound, while a
single `__update__` terminates normally (its history check only
prevents re-resampling, it raises nothing). -/
theorem c4_no_cycle_check :
    (∀ (fuel : ℕ) (rnd : ℕ → ℚ) (k : ℕ),
      resolveO fuel rnd cycStore k 0 (1, 1) = none) ∧
    (∀ (fuel : ℕ) (h : List ℕ), rupdateO fuel cycStore h 0 = none) ∧
    updateO 2 cycStore [] 0 = some (obump cycStore 0, [0]) := by
  refine ⟨?_, ?_, rfl⟩
  · intro fuel rnd k
    exact (resolveO_cyc fuel rnd k (1, 1)).1
  · intro fuel h
    exact (rupdateO_cyc fuel cycStore h cycLike_cycStore).1

/-- Recording is skipped at the default verbosity for the
composition classes (class verbosity 2 against requested default 1). -/
theorem recordN_verb2_default (n : NNode) (hv : n.verbosity = 2)
    (img1 : Image) : recordN n none img1 = img1 := by
  rw [recordN, hv]
  exact if_neg (by norm_num [effVerb])

def c5ApplyN : ONode :=
  { props := [], parent := some (OParent.pimg c5In), probability := 1,
    kind := OKind.leaf Transform.tid, name := "H" }

def c5AS : OStore := [(0, c5ApplyN)]

/-- A `Probability` node gating feature 0 with probability 0, current
draw 0. -/
def c5EP : NNode :=
  { props := [("feature", ⟨NRule.rconst, Val.vfeat 0⟩),
              ("probability", ⟨NRule.rconst, Val.vrat 0⟩),
              ("random_number", ⟨NRule.runiform, Val.vrat 0⟩)],
    kind := NKind.probability, verbosity := 2 }

def c5ES : NStore := [(0, wN), (1, c5EP)]

/-- C5 counterexample: in the older engine a gate with probability 0
still runs its `get` when the uniform draw is exactly 0 (the comparison
is `np.random.rand() <= p`, and 0 ≤ 0): resolving the concrete gate
node with an all-zeros draw stream returns an output carrying a fresh
provenance entry instead of the unchanged input canvas. -/
theorem c5_counterexample :
    (resolveO 2 rnd0 c5S 0 0 (1, 1)).map (fun x => x.1) =
      some ⟨[[5]], [[("name", Val.vstr "G")]]⟩ := by rfl

/-- C5 (amended): a gate with probability 1 applies its transformation
for every draw in [0,1) in both engines. A gate with probability 0
passes the input through unchanged for every positive draw in the older
engine and for every draw in [0,1) in the newer engine (strict `<`);
the older engine (`<=` comparison) instead applies the transformation
when the draw is exactly 0. -/
theorem c5_gate_extremes :
    (∀ (fuel : ℕ) (rnd : ℕ → ℚ) (s : OStore) (k i : ℕ) (sh : ℕ × ℕ)
       (n : ONode) (im : Image) (t : Transform),
       alookup s i = some n → n.cache = none →
       n.parent = some (OParent.pimg im) → n.kind = OKind.leaf t →
       n.probability = 1 → 0 ≤ rnd k → rnd k < 1 →
       resolveO (fuel + 1) rnd s k i sh =
         some (⟨applyT t im.payload, im.records ++ [n.props ++ [("name", Val.vstr n.name)]]⟩, osetCache s i ⟨applyT t im.payload, im.records ++ [n.props ++ [("name", Val.vstr n.name)]]⟩, k + 1)) ∧
    (∀ (fuel : ℕ) (rnd : ℕ → ℚ) (s : OStore) (k i : ℕ) (sh : ℕ × ℕ)
       (n : ONode) (im : Image),
       alookup s i = some n → n.cache = none →
       n.parent = some (OParent.pimg im) → n.probability = 0 →
       0 < rnd k →
       resolveO (fuel + 1) rnd s k i sh =
         some (im, osetCache s i im, k + 1)) ∧
    (∀ (fuel : ℕ) (rnd : ℕ → ℚ) (s : OStore) (k i : ℕ) (sh : ℕ × ℕ)
       (n : ONode) (im : Image) (t : Transform),
       alookup s i = some n → n.cache = none →
       n.parent = some (OParent.pimg im) → n.kind = OKind.leaf t →
       n.probability = 0 → rnd k = 0 →
       resolveO (fuel + 1) rnd s k i sh =
         some (⟨applyT t im.payload, im.records ++ [n.props ++ [("name", Val.vstr n.name)]]⟩, osetCache s i ⟨applyT t im.payload, im.records ++ [n.props ++ [("name", Val.vstr n.name)]]⟩, k + 1)) ∧
    (∀ (fuel : ℕ) (s : NStore) (i : ℕ) (img : Image) (n : NNode)
       (r : ℚ) (f : ℕ),
       alookup s i = some n → n.kind = NKind.probability →
       n.verbosity = 2 →
       getRatVal (mkFInput n.props none) "random_number" = some r →
       getRatVal (mkFInput n.props none) "probability" = some 1 →
       getFeatRef (mkFInput n.props none) "feature" = some f →
       0 ≤ r → r < 1 →
       resolveN (fuel + 1) s i img none =
         (resolveN fuel s f img none).map
           (fun t2 => (t2.1, nsetFlag t2.2 i false))) ∧
    (∀ (fuel : ℕ) (s : NStore) (i : ℕ) (img : Image) (n : NNode)
       (r : ℚ) (f : ℕ),
       alookup s i = some n → n.kind = NKind.probability →
       n.verbosity = 2 →
       getRatVal (mkFInput n.props none) "random_number" = some r →
       getRatVal (mkFInput n.props none) "probability" = some 0 →
       getFeatRef (mkFInput n.props none) "feature" = some f →
       0 ≤ r →
       resolveN (fuel + 1) s i img none =
         some (img, nsetFlag s i false)) := by
  refine ⟨?_, ?_, ?_, ?_, ?_⟩
  · intro fuel rnd s k i sh n im t hn hc hp hk hprob hr0 hr1
    simp only [resolveO, hn, hc, hp]
    rw [hprob, if_pos (le_of_lt hr1), hk]
  · intro fuel rnd s k i sh n im hn hc hp hprob hr0
    simp only [resolveO, hn, hc, hp]
    rw [hprob, if_neg (not_le.mpr hr0)]
  · intro fuel rnd s k i sh n im t hn hc hp hk hprob hr
    simp only [resolveO, hn, hc, hp]
    rw [hprob, hr, if_pos (le_refl (0 : ℚ)), hk]
  · intro fuel s i img n r f hn hk hv h1 h2 h3 hr0 hr1
    simp only [resolveN, hn, hk, h1, h2, h3]
    rw [if_pos hr1]
    cases hsub : resolveN fuel s f img none with
    | none => simp [hsub]
    | some t2 =>
      obtain ⟨img1, s1⟩ := t2
      simp [hsub, recordN_verb2_default n hv]
  · intro fuel s i img n r f hn hk hv h1 h2 h3 hr0
    simp only [resolveN, hn, hk, h1, h2, h3]
    rw [if_neg (not_lt.mpr hr0)]
    simp [recordN_verb2_default n hv]

/-- Witness for C5: each conjunct at a concrete gate. -/
theorem c5_witness :
    resolveO 3 rnd0 c5AS 0 0 (1, 1) =
      some (⟨[[5]], [[("name", Val.vstr "H")]]⟩, osetCache c5AS 0 ⟨[[5]], [[("name", Val.vstr "H")]]⟩, 1) ∧
    resolveO 3 rnd1 c5S 0 0 (1, 1) =
      some (c5In, osetCache c5S 0 c5In, 1) ∧
    resolveN 3 c5ES 1 ⟨[[4]], []⟩ none = some (⟨[[4]], []⟩, nsetFlag c5ES 1 false) := by
  refine ⟨?_, ?_, ?_⟩
  · have := c5_gate_extremes.1 2 rnd0 c5AS 0 0 (1, 1)
      c5ApplyN c5In Transform.tid (by rfl) (by rfl) (by rfl) (by rfl)
      (by rfl) (by decide) (by decide)
    simpa [c5ApplyN, c5In] using this
  · exact c5_gate_extremes.2.1 2 rnd1 c5S 0 0 (1, 1) c5N c5In
      (by rfl) (by rfl) (by rfl) (by rfl) (by decide)
  · exact c5_gate_extremes.2.2.2.2 2 c5ES 1 ⟨[[4]], []⟩ c5EP 0 0
      (by rfl) (by rfl) (by rfl) (by rfl) (by rfl) (by rfl) (by decide)

/-- C6 counterexample: in the older engine, when the draw (1) exceeds
the gating probability (0) the node passes its input through — but no
provenance entry of any kind is recorded: the output is the input canvas
with its record list unchanged, so no transformation-bypassed marker
exists. -/
theorem c6_counterexample :
    (resolveO 2 rnd1 c6S 0 0 (1, 1)).map (fun x => x.1) = some c6In := by
  rfl

/-- C6 (amended): when the draw exceeds the gating probability the
input canvas passes through unchanged. In the older engine nothing at
all is recorded on it (the `image.append` call sits inside the taken
branch). In the newer engine the pass-through output is still subject
to the generic recording rule: an entry is appended iff the class
verbosity (2 for `Probability`) is at most the requested verbosity, and
that entry is the `get` input dictionary — the node's current values,
including `random_number` and `probability`, plus the class name — with
no dedicated bypassed marker. -/
theorem c6_skip_recording :
    (∀ (fuel : ℕ) (rnd : ℕ → ℚ) (s : OStore) (k i : ℕ) (sh : ℕ × ℕ)
       (n : ONode) (im : Image),
       alookup s i = some n → n.cache = none →
       n.parent = some (OParent.pimg im) → n.probability < rnd k →
       resolveO (fuel + 1) rnd s k i sh =
         some (im, osetCache s i im, k + 1)) ∧
    (∀ (fuel : ℕ) (s : NStore) (i : ℕ) (img : Image) (n : NNode)
       (r p : ℚ) (f : ℕ) (v : ℕ),
       alookup s i = some n → n.kind = NKind.probability →
       n.verbosity = 2 →
       getRatVal (mkFInput n.props (some v)) "random_number" = some r →
       getRatVal (mkFInput n.props (some v)) "probability" = some p →
       getFeatRef (mkFInput n.props (some v)) "feature" = some f →
       ¬ r < p →
       resolveN (fuel + 1) s i img (some v) =
         some (recordN n (some v) img, nsetFlag s i false) ∧
       (2 ≤ v → recordN n (some v) img =
         ⟨img.payload, img.records ++ [mkFInput n.props (some v) ++ [("name", Val.vstr "Probability")]]⟩)) := by
  constructor
  · intro fuel rnd s k i sh n im hn hc hp hlt
    simp only [resolveO, hn, hc, hp]
    rw [if_neg (not_le.mpr hlt)]
  · intro fuel s i img n r p f v hn hk hv h1 h2 h3 hnlt
    constructor
    · simp only [resolveN, hn, hk, h1, h2, h3]
      rw [if_neg hnlt]
    · intro hv2
      rw [recordN, hv, if_pos (by simpa [effVerb] using hv2), hk]
      rfl

/-- Witness for C6 at a concrete skipped gate in each engine. -/
theorem c6_witness :
    resolveO 3 rnd1 c6S 0 0 (1, 1) =
      some (c6In, osetCache c6S 0 c6In, 1) ∧
    resolveN 3 c5ES 1 ⟨[[4]], []⟩ (some 2) =
      some (recordN c5EP (some 2) ⟨[[4]], []⟩, nsetFlag c5ES 1 false) ∧
    recordN c5EP (some 2) ⟨[[4]], []⟩ =
      ⟨[[4]], [mkFInput c5EP.props (some 2) ++ [("name", Val.vstr "Probability")]]⟩ := by
  have h2 := c6_skip_recording.2 2 c5ES 1 ⟨[[4]], []⟩ c5EP 0 0 0 2
    (by rfl) (by rfl) (by rfl) (by rfl) (by rfl) (by rfl) (by decide)
  refine ⟨?_, h2.1, ?_⟩
  · exact c6_skip_recording.1 2 rnd1 c6S 0 0 (1, 1) c6N c6In
      (by rfl) (by rfl) (by rfl) (by decide)
  · have := h2.2 (by omega)
    simpa using this

/-- C7 counterexample: a duplication count that samples to the negative
integer −1 raises nothing: `range(-1)` is empty, the materialized
`features` list is empty, and a subsequent resolve of the `Duplicate`
node returns its input unchanged — no `SamplingError` (no such class
exists in the code) is raised for a negative count. -/
theorem c7_counterexample :
    dupMaterialize (Val.vint (-1)) = Except.ok [] ∧
    resolveN 2 c7S 0 c7img none = some (c7img, nsetFlag c7S 0 false) :=
  ⟨rfl, rfl⟩

/-- C7 (amended): the duplication count must sample to an integer. A
count of 0 — and equally any negative integer — yields an empty
materialized list, so resolve returns the input unchanged as a normal
control path; a positive integer `z` materializes `z` copies; a
non-integral (float) count raises `TypeError` from `range`, not a
`SamplingError`. -/
theorem c7_duplicate_count_policy :
    (∀ z : ℤ, z ≤ 0 → dupMaterialize (Val.vint z) = Except.ok []) ∧
    (∀ z : ℤ, dupMaterialize (Val.vint z) =
      Except.ok (List.replicate z.toNat ())) ∧
    (∀ q : ℚ, dupMaterialize (Val.vrat q) =
      Except.error PyErr.typeError) ∧
    (∀ (fuel : ℕ) (s : NStore) (i : ℕ) (img : Image) (n : NNode),
       alookup s i = some n → n.kind = NKind.duplicate →
       n.verbosity = 2 →
       getFeatList (mkFInput n.props none) "features" = some [] →
       resolveN (fuel + 2) s i img none =
         some (img, nsetFlag s i false)) := by
  refine ⟨?_, ?_, ?_, ?_⟩
  · intro z hz
    simp [dupMaterialize, Int.toNat_of_nonpos hz]
  · intro z; rfl
  · intro q; rfl
  · intro fuel s i img n hn hk hv hfl
    simp only [resolveN, hn, hk, hfl, resolveSeq]
    rw [recordN_verb2_default n hv]

/-- Witness for C7 at concrete counts and a concrete `Duplicate` node. -/
theorem c7_witness :
    dupMaterialize (Val.vint (-2)) = Except.ok [] ∧
    dupMaterialize (Val.vint 3) = Except.ok (List.replicate 3 ()) ∧
    dupMaterialize (Val.vrat 5) = Except.error PyErr.typeError ∧
    resolveN 3 c7S 0 c7img none = some (c7img, nsetFlag c7S 0 false) := by
  refine ⟨c7_duplicate_count_policy.1 (-2) (by decide), ?_, ?_, ?_⟩
  · have := c7_duplicate_count_policy.2.1 3
    simpa using this
  · exact c7_duplicate_count_policy.2.2.1 5
  · exact c7_duplicate_count_policy.2.2.2 1 c7S 0 c7img c7N
      (by rfl) (by rfl) (by rfl) (by rfl)

/-- C8: resolving an older-engine node whose `parent` is absent against
a requested shape builds the output by applying the node's own
transformation to a freshly constructed zero-filled canvas of the
node's expected input shape (`__input_shape__`, the identity for a
transformation node) — and then records the provenance entry on it. -/
theorem c8_no_parent_zero_canvas :
    ∀ (fuel : ℕ) (rnd : ℕ → ℚ) (s : OStore) (k i : ℕ) (h w : ℕ)
      (n : ONode) (t : Transform),
      alookup s i = some n → n.cache = none → n.parent = none →
      n.kind = OKind.leaf t → rnd k ≤ n.probability →
      inputShapeO (fuel + 1) s i (h, w) = some (h, w) ∧
      resolveO (fuel + 1) rnd s k i (h, w) =
        some (⟨applyT t (zerosP h w), [n.props ++ [("name", Val.vstr n.name)]]⟩, osetCache s i ⟨applyT t (zerosP h w), [n.props ++ [("name", Val.vstr n.name)]]⟩, k + 1) := by
  intro fuel rnd s k i h w n t hn hc hp hk hr
  have hish : inputShapeO (fuel + 1) s i (h, w) = some (h, w) := by
    simp only [inputShapeO, hn, hk]
  refine ⟨hish, ?_⟩
  simp only [resolveO, hn, hc, hp, hish]
  rw [if_pos hr, hk]
  rfl

/-- Witness for C8 at a concrete parentless node. -/
theorem c8_witness :
    inputShapeO 3 wS 0 (1, 2) = some (1, 2) ∧
    resolveO 3 rnd0 wS 0 0 (1, 2) = some (wIm, osetCache wS 0 wIm, 1) := by
  have := c8_no_parent_zero_canvas 2 rnd0 wS 0 0 1 2 wA Transform.tid
    (by rfl) (by rfl) (by rfl) (by rfl) (by decide)
  simpa [wA, wIm] using this

/-- C9: `Feature.set_property(key, value)` in the older engine assigns
the key string itself as the parameter's current value (the source
reads `self.__properties__[key].current_value = key`), so a subsequent
`get_property(key)` returns the key, whatever value was passed. -/
theorem c9_set_property_assigns_key :
    ∀ (props : List (String × Val)) (key : String) (value : Val)
      (props2 : List (String × Val)),
      setPropertyO props key value = some props2 →
      getPropertyO props2 key = some (Val.vstr key) := by
  intro props key value props2 h
  rw [setPropertyO] at h
  cases hl : alookup props key with
  | none => rw [hl] at h; exact absurd h (by simp)
  | some w =>
    simp only [hl, Option.some.injEq] at h
    rw [← h, getPropertyO, alookup_amap, hl]
    rfl

/-- Witness for C9 at a concrete property dictionary. -/
theorem c9_witness :
    getPropertyO [("sigma", Val.vstr "sigma")] "sigma" =
      some (Val.vstr "sigma") :=
  c9_set_property_assigns_key [("sigma", Val.vrat 3)] "sigma"
    (Val.vrat 99) [("sigma", Val.vstr "sigma")] (by rfl)

/-- C10: the newer engine samples the gate's uniform draw during
`update` — an update of a `Probability` node with the flag clear draws
the next number of the stream into the `random_number` cell — while
`resolve` never resamples: a resolve changes nothing the gate decision
reads, so every resolve between two updates takes the same
apply-versus-skip decision. -/
theorem c10_draw_sampled_at_update :
    (∀ (rnd : ℕ → ℚ) (k : ℕ) (s : NStore) (i : ℕ) (vf vp v0 : Val)
       (u : ℕ),
       alookup s i = some { props := [("feature", ⟨NRule.rconst, vf⟩), ("probability", ⟨NRule.rconst, vp⟩), ("random_number", ⟨NRule.runiform, v0⟩)], kind := NKind.probability, verbosity := 2, flag := false, updates := u } →
       updN rnd k s i = some (nset s i { props := [("feature", ⟨NRule.rconst, vf⟩), ("probability", ⟨NRule.rconst, vp⟩), ("random_number", ⟨NRule.runiform, Val.vrat (rnd k)⟩)], kind := NKind.probability, verbosity := 2, flag := true, updates := u + 1 }, k + 1)) ∧
    (∀ (fuel : ℕ) (s : NStore) (i : ℕ) (img : Image) (verb : Option ℕ)
       (r : Image) (s2 : NStore),
       resolveN fuel s i img verb = some (r, s2) →
       ∀ j, probDecision s2 j = probDecision s j) := by
  constructor
  · intro rnd k s i vf vp v0 u hn
    exact updN_prob rnd k s i vf vp v0 u hn
  · intro fuel s i img verb r s2 h j
    exact probDecision_eraseF ((resolveN_eraseF fuel).1 s i img verb r s2 h) j

/-- Witness for C10 at the concrete gate heap. -/
theorem c10_witness :
    updN rnd1 5 c10S 1 = some (nset c10S 1 { props := [("feature", ⟨NRule.rconst, Val.vfeat 0⟩), ("probability", ⟨NRule.rconst, Val.vrat 1⟩), ("random_number", ⟨NRule.runiform, Val.vrat 1⟩)], kind := NKind.probability, verbosity := 2, flag := true, updates := 1 }, 6) ∧
    probDecision (nsetFlag (nsetFlag c10S 0 false) 1 false) 1 =
      probDecision c10S 1 :=
  ⟨c10_draw_sampled_at_update.1 rnd1 5 c10S 1 (Val.vfeat 0) (Val.vrat 1)
     (Val.vrat 0) 0 (by rfl),
   c10_draw_sampled_at_update.2 3 c10S 1 ⟨zerosP 1 1, []⟩ none
     ⟨zerosP 1 1, [[("c", Val.vrat 3), ("name", Val.vstr "Blur")]]⟩
     (nsetFlag (nsetFlag c10S 0 false) 1 false) (by rfl) 1⟩
